import Mathlib

/-!
Verification of the promptorium storage and versioning engine against its
design specification.  The Lean definitions below are a shallow embedding of
`src/promptorium/storage/fs.py` and `src/promptorium/services.py`; the inline
diff builder is modelled from the specification because `util/diff.py` is not
among the provided source files (only its callers are).
-/

namespace Promptorium

/-! ## Inline diff builder

Modelled from the spec: the repository file `promptorium/util/diff.py`
(`build_inline_diff`) is absent from the provided sources; per the spec it
tokenizes both inputs (word granularity: maximal runs of whitespace and of
non-whitespace, each kept as its own token; char granularity: one token per
character), computes a longest-common-subsequence alignment of the token
sequences, emits an ordered list of equal/insert/delete segments and merges
consecutive same-op tokens into one segment. -/

/-- Diff segment operation: `equal`, `insert` or `delete`. -/
inductive DiffOp where
  | equal
  | insert
  | delete
deriving DecidableEq, Repr

/-- A token is a list of characters (a maximal whitespace or non-whitespace
run at word granularity, a single character at char granularity). -/
abbrev Tok := List Char

/-- Length of a longest common subsequence of two token lists. -/
def lcsLen : List Tok → List Tok → Nat
  | [], _ => 0
  | _ :: _, [] => 0
  | a :: as, b :: bs =>
    if a = b then lcsLen as bs + 1
    else max (lcsLen as (b :: bs)) (lcsLen (a :: as) bs)
termination_by xs ys => xs.length + ys.length
decreasing_by all_goals simp_arith

/-- LCS-style token diff: emits one `(op, token)` pair per token of either
input, aligned along a longest common subsequence. -/
def diffTok : List Tok → List Tok → List (DiffOp × Tok)
  | [], ys => ys.map (fun y => (DiffOp.insert, y))
  | x :: xs, [] => (DiffOp.delete, x) :: diffTok xs []
  | x :: xs, y :: ys =>
    if x = y then (DiffOp.equal, x) :: diffTok xs ys
    else if lcsLen (x :: xs) ys ≤ lcsLen xs (y :: ys) then
      (DiffOp.delete, x) :: diffTok xs (y :: ys)
    else
      (DiffOp.insert, y) :: diffTok (x :: xs) ys
termination_by xs ys => xs.length + ys.length
decreasing_by all_goals simp_arith

/-- Merge consecutive pairs carrying the same op into one segment. -/
def mergeSegs : List (DiffOp × Tok) → List (DiffOp × Tok)
  | [] => []
  | (op, t) :: rest =>
    match mergeSegs rest with
    | [] => [(op, t)]
    | (op2, t2) :: more =>
      if op = op2 then (op, t ++ t2) :: more else (op, t) :: (op2, t2) :: more

/-- Group a character list into maximal runs of whitespace and of
non-whitespace characters (word-granularity tokenization preserving the
separators, so reconstruction is exact). -/
def chunkRuns : List Char → List Tok
  | [] => []
  | c :: cs =>
    match chunkRuns cs with
    | [] => [[c]]
    | [] :: gs => [c] :: gs
    | (d :: ds) :: gs =>
      if c.isWhitespace == d.isWhitespace then (c :: d :: ds) :: gs
      else [c] :: (d :: ds) :: gs

/-- Word-granularity tokenization of a string. -/
def tokenizeWord (s : String) : List Tok := chunkRuns s.data

/-- Char-granularity tokenization of a string: one token per character. -/
def tokenizeChar (s : String) : List Tok := s.data.map (fun c => [c])

/-- A diff segment: an op together with the segment text. -/
structure DiffSegment where
  op : DiffOp
  text : String
deriving DecidableEq, Repr

/-- Modelled from the spec: `build_inline_diff(old, new, granularity)` from
the absent `promptorium/util/diff.py`.  Tokenizes per the granularity, runs
the LCS diff and merges consecutive same-op tokens. -/
def buildInlineDiff (old new : String) (granularity : String) : List DiffSegment :=
  let tokenize := fun (s : String) =>
    if granularity == "char" then tokenizeChar s else tokenizeWord s
  (mergeSegs (diffTok (tokenize old) (tokenize new))).map
    (fun s => { op := s.1, text := String.mk s.2 })

/-- Concatenation of the texts of the segments whose op is equal or delete
(reconstructs the old input). -/
def reconstructOld (segs : List DiffSegment) : String :=
  String.join ((segs.filter (fun s => s.op ≠ DiffOp.insert)).map DiffSegment.text)

/-- Concatenation of the texts of the segments whose op is equal or insert
(reconstructs the new input). -/
def reconstructNew (segs : List DiffSegment) : String :=
  String.join ((segs.filter (fun s => s.op ≠ DiffOp.delete)).map DiffSegment.text)

/-! ### Round-trip lemmas for the diff builder -/

/-- Tokens of the old input carried by a raw token diff (ops equal and delete). -/
def oldToks (l : List (DiffOp × Tok)) : List Tok :=
  l.filterMap (fun s => if s.1 = DiffOp.insert then none else some s.2)

/-- Tokens of the new input carried by a raw token diff (ops equal and insert). -/
def newToks (l : List (DiffOp × Tok)) : List Tok :=
  l.filterMap (fun s => if s.1 = DiffOp.delete then none else some s.2)

@[simp] lemma oldToks_nil : oldToks [] = [] := rfl

@[simp] lemma oldToks_cons (op : DiffOp) (t : Tok) (l : List (DiffOp × Tok)) :
    oldToks ((op, t) :: l) = if op = DiffOp.insert then oldToks l else t :: oldToks l := by
  by_cases h : op = DiffOp.insert <;> simp [oldToks, h]

@[simp] lemma newToks_nil : newToks [] = [] := rfl

@[simp] lemma newToks_cons (op : DiffOp) (t : Tok) (l : List (DiffOp × Tok)) :
    newToks ((op, t) :: l) = if op = DiffOp.delete then newToks l else t :: newToks l := by
  by_cases h : op = DiffOp.delete <;> simp [newToks, h]

lemma diffTok_oldToks (xs ys : List Tok) : oldToks (diffTok xs ys) = xs := by
  induction xs, ys using diffTok.induct with
  | case1 ys => simp [diffTok, oldToks, List.filterMap_map, Function.comp_def]
  | case2 x xs ih => simp [diffTok, ih]
  | case3 x xs ys ih => simp [diffTok, ih]
  | case4 x xs y ys hxy hle ih => simp [diffTok, hxy, hle, ih]
  | case5 x xs y ys hxy hle ih => simp [diffTok, hxy, hle, ih]

lemma diffTok_newToks (xs ys : List Tok) : newToks (diffTok xs ys) = ys := by
  induction xs, ys using diffTok.induct with
  | case1 ys => simp [diffTok, newToks, List.filterMap_map, Function.comp_def]
  | case2 x xs ih => simp [diffTok, ih]
  | case3 x xs ys ih => simp [diffTok, ih]
  | case4 x xs y ys hxy hle ih => simp [diffTok, hxy, hle, ih]
  | case5 x xs y ys hxy hle ih => simp [diffTok, hxy, hle, ih]

lemma mergeSegs_oldToks (l : List (DiffOp × Tok)) :
    (oldToks (mergeSegs l)).flatten = (oldToks l).flatten := by
  induction l with
  | nil => rfl
  | cons s rest ih =>
    obtain ⟨op, t⟩ := s
    cases hm : mergeSegs rest with
    | nil =>
      rw [hm] at ih
      by_cases h : op = DiffOp.insert <;> simp [mergeSegs, hm, h, ← ih]
    | cons s2 more =>
      obtain ⟨op2, t2⟩ := s2
      rw [hm] at ih
      simp only [mergeSegs, hm]
      by_cases h : op = op2
      · subst h
        rw [if_pos rfl]
        by_cases h2 : op = DiffOp.insert
        · simp only [oldToks_cons, if_pos h2] at ih ⊢
          exact ih
        · simp only [oldToks_cons, if_neg h2, List.flatten_cons] at ih ⊢
          rw [← ih, List.append_assoc]
      · rw [if_neg h]
        by_cases h2 : op = DiffOp.insert
        · simp only [oldToks_cons, if_pos h2] at ih ⊢
          exact ih
        · simp only [oldToks_cons, if_neg h2, List.flatten_cons] at ih ⊢
          rw [ih]

lemma mergeSegs_newToks (l : List (DiffOp × Tok)) :
    (newToks (mergeSegs l)).flatten = (newToks l).flatten := by
  induction l with
  | nil => rfl
  | cons s rest ih =>
    obtain ⟨op, t⟩ := s
    cases hm : mergeSegs rest with
    | nil =>
      rw [hm] at ih
      by_cases h : op = DiffOp.delete <;> simp [mergeSegs, hm, h, ← ih]
    | cons s2 more =>
      obtain ⟨op2, t2⟩ := s2
      rw [hm] at ih
      simp only [mergeSegs, hm]
      by_cases h : op = op2
      · subst h
        rw [if_pos rfl]
        by_cases h2 : op = DiffOp.delete
        · simp only [newToks_cons, if_pos h2] at ih ⊢
          exact ih
        · simp only [newToks_cons, if_neg h2, List.flatten_cons] at ih ⊢
          rw [← ih, List.append_assoc]
      · rw [if_neg h]
        by_cases h2 : op = DiffOp.delete
        · simp only [newToks_cons, if_pos h2] at ih ⊢
          exact ih
        · simp only [newToks_cons, if_neg h2, List.flatten_cons] at ih ⊢
          rw [ih]

lemma chunkRuns_flatten (l : List Char) : (chunkRuns l).flatten = l := by
  induction l with
  | nil => rfl
  | cons c cs ih =>
    cases hm : chunkRuns cs with
    | nil =>
      rw [hm] at ih
      simp only [chunkRuns, hm]
      simp at ih
      simp [← ih]
    | cons g gs =>
      rw [hm] at ih
      cases g with
      | nil =>
        simp only [chunkRuns, hm]
        simpa using ih
      | cons d ds =>
        by_cases h : c.isWhitespace = d.isWhitespace
        · simp only [chunkRuns, hm]
          rw [if_pos (by simp [h])]
          simpa using ih
        · simp only [chunkRuns, hm]
          rw [if_neg (by simpa using h)]
          simpa using ih

lemma tokenizeWord_flatten (s : String) : (tokenizeWord s).flatten = s.data :=
  chunkRuns_flatten s.data

lemma tokenizeChar_flatten (s : String) : (tokenizeChar s).flatten = s.data := by
  simp [tokenizeChar]
  induction s.data with
  | nil => rfl
  | cons c cs ih => simp [ih]

lemma mk_append (a b : List Char) : String.mk a ++ String.mk b = String.mk (a ++ b) := rfl

lemma join_map_mk (l : List (List Char)) :
    String.join (l.map String.mk) = String.mk l.flatten := by
  have key : ∀ (l : List (List Char)) (a : List Char),
      (l.map String.mk).foldl (fun r s => r ++ s) (String.mk a) = String.mk (a ++ l.flatten) := by
    intro l
    induction l with
    | nil => intro a; simp
    | cons b bs ih => intro a; simp [mk_append, ih, List.append_assoc]
  have h0 : ("" : String) = String.mk [] := rfl
  simpa [String.join, h0] using key l []

lemma filtered_old_texts (l : List (DiffOp × Tok)) :
    (((l.map (fun s => ({ op := s.1, text := String.mk s.2 } : DiffSegment))).filter
        (fun s => s.op ≠ DiffOp.insert)).map DiffSegment.text)
      = (oldToks l).map String.mk := by
  induction l with
  | nil => rfl
  | cons s rest ih =>
    obtain ⟨op, t⟩ := s
    by_cases h : op = DiffOp.insert <;>
      · simp [h]
        simp at ih
        exact ih

lemma filtered_new_texts (l : List (DiffOp × Tok)) :
    (((l.map (fun s => ({ op := s.1, text := String.mk s.2 } : DiffSegment))).filter
        (fun s => s.op ≠ DiffOp.delete)).map DiffSegment.text)
      = (newToks l).map String.mk := by
  induction l with
  | nil => rfl
  | cons s rest ih =>
    obtain ⟨op, t⟩ := s
    by_cases h : op = DiffOp.delete <;>
      · simp [h]
        simp at ih
        exact ih

lemma reconstructOld_eq (l : List (DiffOp × Tok)) :
    reconstructOld (l.map (fun s => { op := s.1, text := String.mk s.2 })) =
      String.mk (oldToks l).flatten := by
  rw [reconstructOld, filtered_old_texts, join_map_mk]

lemma reconstructNew_eq (l : List (DiffOp × Tok)) :
    reconstructNew (l.map (fun s => { op := s.1, text := String.mk s.2 })) =
      String.mk (newToks l).flatten := by
  rw [reconstructNew, filtered_new_texts, join_map_mk]

lemma mk_data (s : String) : String.mk s.data = s := rfl

/-- C1: for every pair of strings A and B and either granularity (word or
char), the diff of A against B is an ordered sequence of equal/insert/delete
segments such that concatenating the texts of the segments whose op is equal
or delete yields A exactly, and concatenating the texts of the segments whose
op is equal or insert yields B exactly. -/
theorem diff_round_trip (A B g : String) (hg : g = "word" ∨ g = "char") :
    reconstructOld (buildInlineDiff A B g) = A ∧
    reconstructNew (buildInlineDiff A B g) = B := by
  have main : ∀ tokenize : String → List Tok,
      (∀ s, (tokenize s).flatten = s.data) →
      reconstructOld ((mergeSegs (diffTok (tokenize A) (tokenize B))).map
          (fun s => { op := s.1, text := String.mk s.2 })) = A ∧
      reconstructNew ((mergeSegs (diffTok (tokenize A) (tokenize B))).map
          (fun s => { op := s.1, text := String.mk s.2 })) = B := by
    intro tokenize hflat
    constructor
    · rw [reconstructOld_eq, mergeSegs_oldToks, diffTok_oldToks, hflat, mk_data]
    · rw [reconstructNew_eq, mergeSegs_newToks, diffTok_newToks, hflat, mk_data]
  rcases hg with hg | hg <;> subst hg
  · have hw : (("word" : String) == "char") = false := by decide
    simpa [buildInlineDiff, hw] using main tokenizeWord tokenizeWord_flatten
  · have hc : (("char" : String) == "char") = true := by decide
    simpa [buildInlineDiff, hc] using main tokenizeChar tokenizeChar_flatten

/-- Witness for C1 at the concrete scenario from the spec. -/
theorem diff_round_trip_witness :
    (("word" : String) = "word" ∨ ("word" : String) = "char") ∧
    reconstructOld (buildInlineDiff "hello world" "hello there" "word") = "hello world" ∧
    reconstructNew (buildInlineDiff "hello world" "hello there" "word") = "hello there" :=
  ⟨Or.inl rfl,
    (diff_round_trip "hello world" "hello there" "word" (Or.inl rfl)).1,
    (diff_round_trip "hello world" "hello there" "word" (Or.inl rfl)).2⟩

/-! ## Storage engine model

Shallow embedding of `promptorium/storage/fs.py` (`FileSystemPromptStorage`).
Paths are modelled as already-resolved absolute path strings, so
`_resolve_path` and `_store_path` (which only convert between relative and
absolute spellings) are identities, and `repo_root` does not appear: `root`
stands for `self.root` (the `.prompts` directory) and version directories and
source files are given by their resolved paths.  The SHA-256 content hash
`_compute_hash` is threaded through as an opaque deterministic function
parameter `hashFn`, since only equality of fingerprints matters to the
engine. -/

/-- Association-list get, first binding wins (models a Python dict lookup and
a lookup of a file by name). -/
def alistGet {κ ν : Type} [DecidableEq κ] : List (κ × ν) → κ → Option ν
  | [], _ => none
  | (k, v) :: rest, key => if k = key then some v else alistGet rest key

/-- Association-list set: replace the existing binding in place, else append
(models Python dict assignment and an overwriting file write). -/
def alistSet {κ ν : Type} [DecidableEq κ] : List (κ × ν) → κ → ν → List (κ × ν)
  | [], key, v => [(key, v)]
  | (k, w) :: rest, key, v =>
    if k = key then (key, v) :: rest else (k, w) :: alistSet rest key v

/-- Version-file names as matched by `_scan_versions`: `<n>.md` (root-managed),
`<key>-<n>.md` (custom), or any other directory entry.  Names are modelled
structurally by their canonical spellings; `other` covers entries matching
neither pattern. -/
inductive FileName where
  | verFile (n : Nat)
  | keyVerFile (k : String) (n : Nat)
  | other (s : String)
deriving DecidableEq, Repr

/-- Per-key persisted record (`_PromptConfig`). -/
structure PromptConfig where
  source_file : String
  version_dir : String
  last_hash : Option String
  last_version : Nat
deriving DecidableEq, Repr

/-- The parsed metadata document (`_Meta`). -/
structure MetaDoc where
  schema : Nat
  prompts : List (String × PromptConfig)
deriving DecidableEq, Repr

/-- `_SCHEMA_VERSION`. -/
def SCHEMA_VERSION : Nat := 2

/-- The filesystem state visible to the engine: the parsed metadata document
(`none` when `_meta.json` is absent), the existing directories with their
entries (name to content), and source files addressed by full path. -/
structure FS where
  metaFile : Option MetaDoc
  dirs : List (String × List (FileName × String))
  srcFiles : List (String × String)
deriving DecidableEq, Repr

/-- Typed error kinds: one constructor per exception the engine raises
(`schemaMismatch` stands for the `ValueError` raised in `_load_meta`, the
others for the `PromptError` subclasses of `domain.py`). -/
inductive Err where
  | promptAlreadyExists (msg : String)
  | promptNotFound (key : String)
  | versionNotFound (msg : String)
  | sourceFileNotFound (msg : String)
  | invalidKey (msg : String)
  | noContentProvided (msg : String)
  | schemaMismatch (msg : String)
deriving DecidableEq, Repr

/-- `PromptRef` from `domain.py`. -/
structure PromptRef where
  key : String
  source_file : String
  version_dir : String
  managed_by_root : Bool
deriving DecidableEq, Repr

/-- `PromptVersion` from `domain.py`; the snapshot path is the pair of its
directory and its file name. -/
structure PromptVersion where
  key : String
  version : Nat
  dir : String
  name : FileName
deriving DecidableEq, Repr

/-- `SyncResult` from `domain.py`. -/
structure SyncResult where
  key : String
  changed : Bool
  old_version : Option Nat
  new_version : Option Nat
  message : String
deriving DecidableEq, Repr

/-- `PromptInfo` from `domain.py`. -/
structure PromptInfo where
  ref : PromptRef
  versions : List PromptVersion
deriving DecidableEq, Repr

/-- `DiffResult` from `domain.py`. -/
structure DiffResult where
  key : String
  v1 : Nat
  v2 : Nat
  segments : List DiffSegment
deriving DecidableEq, Repr

/-- Message of the schema-mismatch error in `_load_meta`. -/
def schemaMismatchMsg (schema : Nat) : String :=
  "Unsupported schema version " ++ toString schema ++ ". Expected " ++
    toString SCHEMA_VERSION ++ ". Run the migration script to upgrade."

/-- `_load_meta`: empty current-schema document when `_meta.json` is absent,
schema-mismatch error when the stored schema differs from the expected one. -/
def loadMeta (fs : FS) : Except Err MetaDoc :=
  match fs.metaFile with
  | none => .ok { schema := SCHEMA_VERSION, prompts := [] }
  | some m =>
    if m.schema ≠ SCHEMA_VERSION then
      .error (.schemaMismatch (schemaMismatchMsg m.schema))
    else .ok m

/-- `_save_meta` (atomic rewrite of the whole document). -/
def saveMeta (m : MetaDoc) (fs : FS) : FS := { fs with metaFile := some m }

/-- `_is_managed_by_root`: the version directory resolves to a path at or
under the engine's private root. -/
def isManagedByRoot (root dir : String) : Bool :=
  dir == root || List.isPrefixOf (root.data ++ [Char.ofNat 47]) dir.data

/-- `_version_path` restricted to the file name (the directory is passed
alongside wherever the full path is needed). -/
def versionPathName (key : String) (version : Nat) (managed : Bool) : FileName :=
  if managed then .verFile version else .keyVerFile key version

/-- The per-entry pattern match of `_scan_versions`: which version number, if
any, a directory entry name denotes for this key under this naming scheme. -/
def parseName (key : String) (managed : Bool) (name : FileName) : Option Nat :=
  match managed, name with
  | true, .verFile n => some n
  | false, .keyVerFile k n => if k = key then some n else none
  | _, _ => none

/-- Ordered insertion by version number (used to model `versions.sort`). -/
def insertByFst {α : Type} (p : Nat × α) : List (Nat × α) → List (Nat × α)
  | [] => [p]
  | q :: qs => if p.1 ≤ q.1 then p :: q :: qs else q :: insertByFst p qs

/-- Stable sort by version number (`versions.sort(key=lambda t: t[0])`). -/
def sortByFst {α : Type} : List (Nat × α) → List (Nat × α)
  | [] => []
  | p :: ps => insertByFst p (sortByFst ps)

/-- Directory lookup (`None` when the directory does not exist). -/
def lookupDir (fs : FS) (dir : String) : Option (List (FileName × String)) :=
  alistGet fs.dirs dir

/-- `_scan_versions`: list the directory, keep the entries matching the
applicable pattern, sort ascending by version number.  Each scanned pair
carries the content stored at the matched path (the code returns the path
and reads it later; the path determines the content). -/
def scanVersions (key : String) (version_dir : String) (managed : Bool) (fs : FS) :
    List (Nat × String) :=
  match lookupDir fs version_dir with
  | none => []
  | some entries =>
    sortByFst (entries.filterMap (fun e => (parseName key managed e.1).map (fun n => (n, e.2))))

/-- `_next_version`: one past the highest scanned version, or 1. -/
def nextVersion (key : String) (version_dir : String) (managed : Bool) (fs : FS) : Nat :=
  match (scanVersions key version_dir managed fs).getLast? with
  | some p => p.1 + 1
  | none => 1

/-- `atomic_write_text` to a version-directory entry (creates the directory
if needed, overwrites an existing entry of the same name). -/
def dirWrite (fs : FS) (dir : String) (name : FileName) (content : String) : FS :=
  { fs with dirs := alistSet fs.dirs dir (alistSet ((alistGet fs.dirs dir).getD []) name content) }

/-- `Path.unlink` of a version-directory entry. -/
def dirRemove (fs : FS) (dir : String) (name : FileName) : FS :=
  match alistGet fs.dirs dir with
  | none => fs
  | some es =>
    { fs with dirs := alistSet fs.dirs dir (es.filter (fun e => decide (e.1 ≠ name))) }

/-- `mkdir(parents=True, exist_ok=True)`. -/
def mkdirFS (fs : FS) (dir : String) : FS :=
  match alistGet fs.dirs dir with
  | some _ => fs
  | none => { fs with dirs := alistSet fs.dirs dir [] }

/-- `atomic_write_text` to a source file. -/
def writeSrc (fs : FS) (path content : String) : FS :=
  { fs with srcFiles := alistSet fs.srcFiles path content }

/-- `ensure_initialized`. -/
def ensureInitialized (root : String) (fs : FS) : FS :=
  let fs1 := mkdirFS fs root
  match fs1.metaFile with
  | none => saveMeta { schema := SCHEMA_VERSION, prompts := [] } fs1
  | some _ => fs1

/-- `key_exists`. -/
def keyExists (key : String) (fs : FS) : Except Err Bool :=
  (loadMeta fs).map (fun m => (alistGet m.prompts key).isSome)

/-- `get_prompt_ref`. -/
def getPromptRef (root key : String) (fs : FS) : Except Err PromptRef :=
  match loadMeta fs with
  | .error e => .error e
  | .ok meta =>
    match alistGet meta.prompts key with
    | none => .error (.promptNotFound key)
    | some cfg =>
      .ok { key := key, source_file := cfg.source_file, version_dir := cfg.version_dir,
            managed_by_root := isManagedByRoot root cfg.version_dir }

/-- `track_source` (storage layer).  `version_dir = none` selects the default
`<root>/<key>` directory.  The unreachable error branches after a successful
load mirror where Python would raise. -/
def trackSource (hashFn : String → String) (root key source_file : String)
    (version_dir : Option String) (fs : FS) : Except Err PromptRef × FS :=
  let fs0 := ensureInitialized root fs
  match loadMeta fs0 with
  | .error e => (.error e, fs0)
  | .ok meta =>
    if (alistGet meta.prompts key).isSome then
      (.error (.promptAlreadyExists ("Prompt key '" ++ key ++ "' already exists.")), fs0)
    else
      match alistGet fs0.srcFiles source_file with
      | none => (.error (.sourceFileNotFound ("Source file not found: " ++ source_file)), fs0)
      | some content =>
        let verDir := match version_dir with
          | none => root ++ "/" ++ key
          | some d => d
        let fs1 := mkdirFS fs0 verDir
        let managed := isManagedByRoot root verDir
        let contentHash := hashFn content
        let nextVer := nextVersion key verDir managed fs1
        let name := versionPathName key nextVer managed
        let fs2 := dirWrite fs1 verDir name content
        let cfg : PromptConfig :=
          { source_file := source_file, version_dir := verDir,
            last_hash := some contentHash, last_version := nextVer }
        let fs3 := saveMeta { meta with prompts := alistSet meta.prompts key cfg } fs2
        (.ok { key := key, source_file := source_file, version_dir := verDir,
               managed_by_root := managed }, fs3)

/-- `list_prompts`: every tracked key, sorted, with its live-scanned version
history. -/
def listPrompts (root : String) (fs : FS) : Except Err (List PromptInfo) × FS :=
  let fs0 := ensureInitialized root fs
  match loadMeta fs0 with
  | .error e => (.error e, fs0)
  | .ok meta =>
    let keys := (meta.prompts.map Prod.fst).mergeSort (fun a b => a ≤ b)
    let infos := keys.filterMap (fun key =>
      (alistGet meta.prompts key).map (fun cfg =>
        let managed := isManagedByRoot root cfg.version_dir
        let ref : PromptRef :=
          { key := key, source_file := cfg.source_file, version_dir := cfg.version_dir,
            managed_by_root := managed }
        let pairs := scanVersions key cfg.version_dir managed fs0
        { ref := ref,
          versions := pairs.map (fun p =>
            { key := key, version := p.1, dir := cfg.version_dir,
              name := versionPathName key p.1 managed }) }))
    (.ok infos, fs0)

/-- `write_new_version`: overwrite the source file, create the next version
file, update the cached hash and version. -/
def writeNewVersion (hashFn : String → String) (root key content : String) (fs : FS) :
    Except Err PromptVersion × FS :=
  match getPromptRef root key fs with
  | .error e => (.error e, fs)
  | .ok ref =>
    match loadMeta fs with
    | .error e => (.error e, fs)
    | .ok meta =>
      match alistGet meta.prompts key with
      | none => (.error (.promptNotFound key), fs)
      | some cfg =>
        let fs1 := writeSrc fs ref.source_file content
        let nextVer := nextVersion key ref.version_dir ref.managed_by_root fs1
        let name := versionPathName key nextVer ref.managed_by_root
        let fs2 := dirWrite fs1 ref.version_dir name content
        let cfg1 := { cfg with last_hash := some (hashFn content), last_version := nextVer }
        let fs3 := saveMeta { meta with prompts := alistSet meta.prompts key cfg1 } fs2
        (.ok { key := key, version := nextVer, dir := ref.version_dir, name := name }, fs3)

/-- `delete_latest`: unlink the highest-numbered version file, then update
the cached `last_version` to the next-highest remaining number (0 if none). -/
def deleteLatest (root key : String) (fs : FS) : Except Err PromptVersion × FS :=
  match getPromptRef root key fs with
  | .error e => (.error e, fs)
  | .ok ref =>
    let pairs := scanVersions key ref.version_dir ref.managed_by_root fs
    match pairs.getLast? with
    | none => (.error (.versionNotFound ("No versions for key: " ++ key)), fs)
    | some last =>
      let name := versionPathName key last.1 ref.managed_by_root
      let fs1 := dirRemove fs ref.version_dir name
      match loadMeta fs1 with
      | .error e => (.error e, fs1)
      | .ok meta =>
        match alistGet meta.prompts key with
        | none => (.error (.promptNotFound key), fs1)
        | some cfg =>
          let newLast := match pairs.dropLast.getLast? with
            | some p => p.1
            | none => 0
          let cfg1 := { cfg with last_version := newLast }
          let fs2 := saveMeta { meta with prompts := alistSet meta.prompts key cfg1 } fs1
          (.ok { key := key, version := last.1, dir := ref.version_dir, name := name }, fs2)

/-- `read_version`: latest version when `version` is `none`, the exact
version otherwise. -/
def readVersion (root key : String) (version : Option Nat) (fs : FS) : Except Err String :=
  match getPromptRef root key fs with
  | .error e => .error e
  | .ok ref =>
    let pairs := scanVersions key ref.version_dir ref.managed_by_root fs
    match pairs.getLast? with
    | none => .error (.versionNotFound ("No versions for key: " ++ key))
    | some last =>
      match version with
      | none => .ok last.2
      | some v =>
        match pairs.find? (fun p => p.1 == v) with
        | some p => .ok p.2
        | none =>
          .error (.versionNotFound ("Version " ++ toString v ++ " not found for key: " ++ key))

/-- `sync_from_source`. -/
def syncFromSource (hashFn : String → String) (root key : String) (force : Bool) (fs : FS) :
    Except Err SyncResult × FS :=
  match getPromptRef root key fs with
  | .error e => (.error e, fs)
  | .ok ref =>
    match loadMeta fs with
    | .error e => (.error e, fs)
    | .ok meta =>
      match alistGet meta.prompts key with
      | none => (.error (.promptNotFound key), fs)
      | some cfg =>
        match alistGet fs.srcFiles ref.source_file with
        | none =>
          (.error (.sourceFileNotFound ("Source file not found: " ++ ref.source_file)), fs)
        | some content =>
          let currentHash := hashFn content
          if !force && (some currentHash == cfg.last_hash) then
            (.ok { key := key, changed := false, old_version := some cfg.last_version,
                   new_version := none,
                   message := "No changes detected for '" ++ key ++ "'" }, fs)
          else
            let oldVersion := cfg.last_version
            let nextVer := nextVersion key ref.version_dir ref.managed_by_root fs
            let name := versionPathName key nextVer ref.managed_by_root
            let fs1 := dirWrite fs ref.version_dir name content
            let cfg1 := { cfg with last_hash := some currentHash, last_version := nextVer }
            let fs2 := saveMeta { meta with prompts := alistSet meta.prompts key cfg1 } fs1
            (.ok { key := key, changed := true, old_version := some oldVersion,
                   new_version := some nextVer,
                   message := "Synced '" ++ key ++ "': v" ++ toString oldVersion ++
                     " -> v" ++ toString nextVer }, fs2)

/-! ## Service layer (`services.py`) -/

/-- Modelled from the spec: `is_valid_key` from the absent
`promptorium/util/keygen.py`; a key is valid text matching
`^[a-zA-Z0-9_-]+$`. -/
def isValidKey (key : String) : Bool :=
  !key.isEmpty &&
    key.data.all (fun c => c.isAlpha || c.isDigit || c = Char.ofNat 95 || c = Char.ofNat 45)

/-- `PromptService.track_source` with an explicit key (auto-generation via
`generate_unique_key`, used only when no key is supplied, is not modelled:
`util/keygen.py` is absent from the sources and no claim concerns it). -/
def serviceTrackSource (hashFn : String → String) (root source_file key : String)
    (version_dir : Option String) (fs : FS) :
    Except Err (PromptRef × Option PromptVersion) × FS :=
  if !(isValidKey key) then (.error (.invalidKey ("Invalid key: " ++ key)), fs)
  else
    match keyExists key fs with
    | .error e => (.error e, fs)
    | .ok true =>
      match getPromptRef root key fs with
      | .error e => (.error e, fs)
      | .ok ref =>
        (.error (.promptAlreadyExists ("Prompt with key '" ++ key ++
          "' already exists with source '" ++ ref.source_file ++
          "'. Use a different --key or untrack the existing prompt first.")), fs)
    | .ok false =>
      match trackSource hashFn root key source_file version_dir fs with
      | (.error e, fs1) => (.error e, fs1)
      | (.ok ref, fs1) =>
        match listPrompts root fs1 with
        | (.error e, fs2) => (.error e, fs2)
        | (.ok infos, fs2) =>
          match infos.find? (fun i => i.ref.key == key && !i.versions.isEmpty) with
          | some i => (.ok (ref, i.versions.getLast?), fs2)
          | none => (.ok (ref, none), fs2)

/-- `PromptService.update_prompt`: reject empty content, then ensure the key
exists and delegate to `write_new_version`. -/
def updatePrompt (hashFn : String → String) (root key content : String) (fs : FS) :
    Except Err PromptVersion × FS :=
  if content.isEmpty then (.error (.noContentProvided "No prompt text provided."), fs)
  else
    match getPromptRef root key fs with
    | .error e => (.error e, fs)
    | .ok _ => writeNewVersion hashFn root key content fs

/-- `PromptService.diff_versions`: read both versions, normalize the
granularity to word unless it is word or char, build the inline diff. -/
def diffVersions (root key : String) (v1 v2 : Nat) (granularity : String) (fs : FS) :
    Except Err DiffResult :=
  match readVersion root key (some v1) fs with
  | .error e => .error e
  | .ok a =>
    match readVersion root key (some v2) fs with
    | .error e => .error e
    | .ok b =>
      let g := if granularity != "word" && granularity != "char" then "word" else granularity
      .ok { key := key, v1 := v1, v2 := v2, segments := buildInlineDiff a b g }

/-! ## Toolbox lemmas about the model -/

@[simp] lemma alistGet_nil {κ ν : Type} [DecidableEq κ] (k : κ) :
    alistGet ([] : List (κ × ν)) k = none := rfl

lemma alistGet_cons {κ ν : Type} [DecidableEq κ] (k : κ) (v : ν) (l : List (κ × ν)) (key : κ) :
    alistGet ((k, v) :: l) key = if k = key then some v else alistGet l key := rfl

@[simp] lemma alistGet_set_self {κ ν : Type} [DecidableEq κ] (l : List (κ × ν)) (k : κ) (v : ν) :
    alistGet (alistSet l k v) k = some v := by
  induction l with
  | nil => simp [alistGet, alistSet]
  | cons p rest ih =>
    obtain ⟨k1, v1⟩ := p
    by_cases h : k1 = k <;> simp [alistGet, alistSet, h, ih]

lemma alistGet_set_ne {κ ν : Type} [DecidableEq κ] (l : List (κ × ν)) (k k2 : κ) (v : ν)
    (h : k ≠ k2) : alistGet (alistSet l k v) k2 = alistGet l k2 := by
  induction l with
  | nil => simp [alistGet, alistSet, h]
  | cons p rest ih =>
    obtain ⟨k1, v1⟩ := p
    by_cases h1 : k1 = k
    · subst h1; simp [alistGet, alistSet, h]
    · simp [alistGet, alistSet, h1, ih]

lemma alistSet_of_fresh {κ ν : Type} [DecidableEq κ] (l : List (κ × ν)) (k : κ) (v : ν)
    (h : ∀ p ∈ l, p.1 ≠ k) : alistSet l k v = l ++ [(k, v)] := by
  induction l with
  | nil => rfl
  | cons p rest ih =>
    obtain ⟨k1, v1⟩ := p
    have h1 : k1 ≠ k := h (k1, v1) (List.mem_cons_self _ _)
    simp only [alistSet, if_neg h1, List.cons_append, List.cons.injEq, true_and]
    exact ih (fun p hp => h p (List.mem_cons_of_mem _ hp))

lemma insertByFst_perm {α : Type} (p : Nat × α) (l : List (Nat × α)) :
    List.Perm (insertByFst p l) (p :: l) := by
  induction l with
  | nil => simp [insertByFst]
  | cons q qs ih =>
    by_cases h : p.1 ≤ q.1
    · simp [insertByFst, h]
    · simp only [insertByFst, if_neg h]
      exact (List.Perm.cons q ih).trans (List.Perm.swap p q qs)

lemma sortByFst_perm {α : Type} (l : List (Nat × α)) : List.Perm (sortByFst l) l := by
  induction l with
  | nil => simp [sortByFst]
  | cons p ps ih => exact (insertByFst_perm p (sortByFst ps)).trans (List.Perm.cons p ih)

lemma mem_sortByFst {α : Type} (l : List (Nat × α)) (q : Nat × α) :
    q ∈ sortByFst l ↔ q ∈ l := (sortByFst_perm l).mem_iff

lemma length_sortByFst {α : Type} (l : List (Nat × α)) :
    (sortByFst l).length = l.length := (sortByFst_perm l).length_eq

lemma insertByFst_sorted {α : Type} (p : Nat × α) (l : List (Nat × α))
    (hs : List.Pairwise (fun a b : Nat × α => a.1 ≤ b.1) l) :
    List.Pairwise (fun a b : Nat × α => a.1 ≤ b.1) (insertByFst p l) := by
  induction l with
  | nil => simp [insertByFst]
  | cons q qs ih =>
    rcases List.pairwise_cons.mp hs with ⟨hq, hqs⟩
    by_cases h : p.1 ≤ q.1
    · simp only [insertByFst, if_pos h]
      refine List.pairwise_cons.mpr ⟨?_, hs⟩
      intro r hr
      rcases List.mem_cons.mp hr with h1 | h1
      · subst h1; exact h
      · exact le_trans h (hq r h1)
    · simp only [insertByFst, if_neg h]
      refine List.pairwise_cons.mpr ⟨?_, ih hqs⟩
      intro r hr
      rcases List.mem_cons.mp ((insertByFst_perm p qs).mem_iff.mp hr) with h1 | h1
      · subst h1; omega
      · exact hq r h1

lemma sortByFst_sorted {α : Type} (l : List (Nat × α)) :
    List.Pairwise (fun a b : Nat × α => a.1 ≤ b.1) (sortByFst l) := by
  induction l with
  | nil => simp [sortByFst]
  | cons p ps ih => exact insertByFst_sorted p (sortByFst ps) ih

lemma insertByFst_append_last {α : Type} (q p : Nat × α) (l : List (Nat × α))
    (h : q.1 < p.1) : insertByFst q (l ++ [p]) = insertByFst q l ++ [p] := by
  induction l with
  | nil => simp [insertByFst, Nat.le_of_lt h]
  | cons r rs ih =>
    by_cases h1 : q.1 ≤ r.1 <;> simp [insertByFst, h1, ih]

lemma sortByFst_append_max {α : Type} (p : Nat × α) (l : List (Nat × α))
    (h : ∀ q ∈ l, q.1 < p.1) : sortByFst (l ++ [p]) = sortByFst l ++ [p] := by
  induction l with
  | nil => simp [sortByFst, insertByFst]
  | cons q qs ih =>
    have hqs := ih (fun r hr => h r (List.mem_cons_of_mem _ hr))
    show insertByFst q (sortByFst (qs ++ [p])) = insertByFst q (sortByFst qs) ++ [p]
    rw [hqs]
    exact insertByFst_append_last q p (sortByFst qs) (h q (List.mem_cons_self _ _))

lemma fst_le_getLast {α : Type} (l : List (Nat × α)) (hne : l ≠ [])
    (hs : List.Pairwise (fun a b : Nat × α => a.1 ≤ b.1) l) (q : Nat × α) (hq : q ∈ l) :
    q.1 ≤ (l.getLast hne).1 := by
  induction l with
  | nil => cases hq
  | cons p ps ih =>
    cases ps with
    | nil =>
      rcases List.mem_cons.mp hq with h | h
      · subst h; rfl
      · cases h
    | cons r rs =>
      rw [List.getLast_cons (by simp)]
      rcases List.mem_cons.mp hq with h | h
      · subst h
        exact (List.pairwise_cons.mp hs).1 _ (List.getLast_mem (by simp))
      · exact ih (by simp) (List.pairwise_cons.mp hs).2 h

lemma parse_versionPathName (key : String) (n : Nat) (managed : Bool) :
    parseName key managed (versionPathName key n managed) = some n := by
  cases managed <;> simp [parseName, versionPathName]

lemma parseName_eq_versionPathName (key : String) (managed : Bool) (name : FileName) (n : Nat)
    (h : parseName key managed name = some n) : name = versionPathName key n managed := by
  cases managed <;> cases name <;>
    simp_all [parseName, versionPathName]

lemma scan_eq_sort (key d : String) (m : Bool) (fs : FS) :
    scanVersions key d m fs =
      sortByFst (((alistGet fs.dirs d).getD []).filterMap
        (fun e => (parseName key m e.1).map (fun n => (n, e.2)))) := by
  unfold scanVersions lookupDir
  cases h : alistGet fs.dirs d <;> simp [h, sortByFst]

lemma scan_sorted (key d : String) (m : Bool) (fs : FS) :
    List.Pairwise (fun a b : Nat × String => a.1 ≤ b.1) (scanVersions key d m fs) := by
  rw [scan_eq_sort]
  exact sortByFst_sorted _

lemma scan_fst_lt_next (key d : String) (m : Bool) (fs : FS) (q : Nat × String)
    (hq : q ∈ scanVersions key d m fs) : q.1 < nextVersion key d m fs := by
  unfold nextVersion
  cases hl : (scanVersions key d m fs).getLast? with
  | none =>
    rw [List.getLast?_eq_none_iff] at hl
    rw [hl] at hq
    cases hq
  | some p =>
    have hne : scanVersions key d m fs ≠ [] := by
      intro h0
      rw [h0] at hl
      cases hl
    have hle := fst_le_getLast (scanVersions key d m fs) hne (scan_sorted key d m fs) q hq
    rw [List.getLast?_eq_getLast _ hne] at hl
    injection hl with hl
    rw [hl] at hle
    show q.1 < p.1 + 1
    omega

lemma scan_saveMeta (key d : String) (m : Bool) (doc : MetaDoc) (fs : FS) :
    scanVersions key d m (saveMeta doc fs) = scanVersions key d m fs := rfl

lemma scan_writeSrc (key d : String) (m : Bool) (p c : String) (fs : FS) :
    scanVersions key d m (writeSrc fs p c) = scanVersions key d m fs := rfl

lemma scan_mkdirFS (key d : String) (m : Bool) (dir2 : String) (fs : FS) :
    scanVersions key d m (mkdirFS fs dir2) = scanVersions key d m fs := by
  unfold mkdirFS
  cases h : alistGet fs.dirs dir2 with
  | some es => rfl
  | none =>
    rw [scan_eq_sort, scan_eq_sort]
    by_cases hd : dir2 = d
    · subst hd
      simp [h, alistGet_set_self]
    · have : alistGet (alistSet fs.dirs dir2 ([] : List (FileName × String))) d
          = alistGet fs.dirs d := alistGet_set_ne _ _ _ _ hd
      simp [this]

lemma scan_dirWrite_fresh (key d : String) (m : Bool) (fs : FS) (n : Nat) (c : String)
    (h : ∀ q ∈ scanVersions key d m fs, q.1 < n) :
    scanVersions key d m (dirWrite fs d (versionPathName key n m) c) =
      scanVersions key d m fs ++ [(n, c)] := by
  set f : FileName × String → Option (Nat × String) :=
    fun e => (parseName key m e.1).map (fun v => (v, e.2)) with hf
  set es := (alistGet fs.dirs d).getD [] with hes
  have hscan : scanVersions key d m fs = sortByFst (es.filterMap f) := scan_eq_sort key d m fs
  have hfresh : ∀ e ∈ es, e.1 ≠ versionPathName key n m := by
    intro e he hcontra
    have hp : f e = some (n, e.2) := by
      simp only [hf, hcontra, parse_versionPathName]
      rfl
    have hmem : (n, e.2) ∈ es.filterMap f := List.mem_filterMap.mpr ⟨e, he, hp⟩
    have : (n, e.2) ∈ scanVersions key d m fs := by
      rw [hscan, mem_sortByFst]
      exact hmem
    exact absurd (h _ this) (by simp)
  have hentries : alistGet (dirWrite fs d (versionPathName key n m) c).dirs d
      = some (es ++ [(versionPathName key n m, c)]) := by
    unfold dirWrite
    simp only [alistGet_set_self]
    rw [← hes, alistSet_of_fresh _ _ _ hfresh]
  rw [scan_eq_sort, hentries]
  simp only [Option.getD_some]
  rw [List.filterMap_append]
  have hone : List.filterMap f [(versionPathName key n m, c)] = [(n, c)] := by
    simp [hf, parse_versionPathName]
  rw [hone, ← hf, sortByFst_append_max, ← hscan]
  intro q hq
  apply h
  rw [hscan, mem_sortByFst]
  exact hq

/-- The `PromptRef` that `get_prompt_ref` builds from a stored config. -/
def refOf (root key : String) (cfg : PromptConfig) : PromptRef :=
  { key := key, source_file := cfg.source_file, version_dir := cfg.version_dir,
    managed_by_root := isManagedByRoot root cfg.version_dir }

lemma loadMeta_schema (fs : FS) (m : MetaDoc) (h : loadMeta fs = .ok m) :
    m.schema = SCHEMA_VERSION := by
  unfold loadMeta at h
  split at h
  · injection h with h
    rw [← h]
  · split at h
    · cases h
    · next h2 =>
      injection h with h
      rw [← h]
      exact not_not.mp h2

lemma loadMeta_save_ok (doc : MetaDoc) (fs : FS) (h : doc.schema = SCHEMA_VERSION) :
    loadMeta (saveMeta doc fs) = .ok doc := by
  unfold loadMeta saveMeta
  simp [h]

lemma getPromptRef_eq (root key : String) (fs : FS) (meta : MetaDoc) (cfg : PromptConfig)
    (hm : loadMeta fs = .ok meta) (hc : alistGet meta.prompts key = some cfg) :
    getPromptRef root key fs = .ok (refOf root key cfg) := by
  simp only [getPromptRef, refOf, hm, hc]

lemma getPromptRef_inv (root key : String) (fs : FS) (ref : PromptRef)
    (h : getPromptRef root key fs = .ok ref) :
    ∃ meta cfg, loadMeta fs = .ok meta ∧ alistGet meta.prompts key = some cfg ∧
      ref = refOf root key cfg := by
  unfold getPromptRef at h
  cases hm : loadMeta fs with
  | error e =>
    simp only [hm] at h
    exact Except.noConfusion h
  | ok meta =>
    simp only [hm] at h
    cases hc : alistGet meta.prompts key with
    | none =>
      simp only [hc] at h
      exact Except.noConfusion h
    | some cfg =>
      simp only [hc] at h
      injection h with h
      exact ⟨meta, cfg, rfl, hc, h.symm⟩

lemma syncFromSource_eq_noop (hashFn : String → String) (root key : String) (fs : FS)
    (meta : MetaDoc) (cfg : PromptConfig) (content : String)
    (hm : loadMeta fs = .ok meta) (hc : alistGet meta.prompts key = some cfg)
    (hs : alistGet fs.srcFiles cfg.source_file = some content)
    (hh : cfg.last_hash = some (hashFn content)) :
    syncFromSource hashFn root key false fs =
      (.ok { key := key, changed := false, old_version := some cfg.last_version,
             new_version := none,
             message := "No changes detected for '" ++ key ++ "'" }, fs) := by
  have href := getPromptRef_eq root key fs meta cfg hm hc
  simp only [syncFromSource, href, refOf, hm, hc, hs, hh, beq_self_eq_true,
    Bool.not_false, Bool.true_and, if_true]

lemma syncFromSource_eq_write (hashFn : String → String) (root key : String) (force : Bool)
    (fs : FS) (meta : MetaDoc) (cfg : PromptConfig) (content : String)
    (hm : loadMeta fs = .ok meta) (hc : alistGet meta.prompts key = some cfg)
    (hs : alistGet fs.srcFiles cfg.source_file = some content)
    (hcond : (!force && (some (hashFn content) == cfg.last_hash)) = false) :
    syncFromSource hashFn root key force fs =
      (.ok { key := key, changed := true, old_version := some cfg.last_version,
             new_version :=
               some (nextVersion key cfg.version_dir (isManagedByRoot root cfg.version_dir) fs),
             message := "Synced '" ++ key ++ "': v" ++ toString cfg.last_version ++ " -> v" ++
               toString (nextVersion key cfg.version_dir (isManagedByRoot root cfg.version_dir) fs) },
       saveMeta
         { meta with
             prompts :=
               alistSet meta.prompts key
                 { cfg with
                     last_hash := some (hashFn content),
                     last_version :=
                       nextVersion key cfg.version_dir (isManagedByRoot root cfg.version_dir) fs } }
         (dirWrite fs cfg.version_dir
           (versionPathName key
             (nextVersion key cfg.version_dir (isManagedByRoot root cfg.version_dir) fs)
             (isManagedByRoot root cfg.version_dir)) content)) := by
  have href := getPromptRef_eq root key fs meta cfg hm hc
  simp only [syncFromSource, href, refOf, hm, hc, hs, hcond, Bool.false_eq_true, if_false]

/-- C2: for every tracked key whose source file exists, sync with the source
fingerprint equal to the cached hash and force false returns an unchanged
result carrying the current version number and performs no writes; and a
second sync immediately after any successful first sync is such a no-op on
an unchanged state. -/
theorem sync_unchanged_noop (hashFn : String → String) (root key : String) (fs : FS)
    (meta : MetaDoc) (cfg : PromptConfig) (content : String)
    (hm : loadMeta fs = .ok meta) (hc : alistGet meta.prompts key = some cfg)
    (hs : alistGet fs.srcFiles cfg.source_file = some content) :
    (cfg.last_hash = some (hashFn content) →
      syncFromSource hashFn root key false fs =
        (.ok { key := key, changed := false, old_version := some cfg.last_version,
               new_version := none,
               message := "No changes detected for '" ++ key ++ "'" }, fs)) ∧
    (∀ r1 fs1, syncFromSource hashFn root key false fs = (.ok r1, fs1) →
      (syncFromSource hashFn root key false fs1).2 = fs1 ∧
      ∃ r2, (syncFromSource hashFn root key false fs1).1 = .ok r2 ∧
        r2.changed = false ∧ r2.new_version = none) := by
  constructor
  · intro hh
    exact syncFromSource_eq_noop hashFn root key fs meta cfg content hm hc hs hh
  · intro r1 fs1 h1
    by_cases hb : (some (hashFn content) == cfg.last_hash) = true
    · have hh : cfg.last_hash = some (hashFn content) := (eq_of_beq hb).symm
      have hnoop := syncFromSource_eq_noop hashFn root key fs meta cfg content hm hc hs hh
      rw [hnoop] at h1
      have hfs1 : fs1 = fs := (congrArg Prod.snd h1).symm
      subst hfs1
      rw [hnoop]
      exact ⟨rfl, _, rfl, rfl, rfl⟩
    · have hcond : (!false && (some (hashFn content) == cfg.last_hash)) = false := by
        simp [Bool.eq_false_iff.mpr hb]
      have hw := syncFromSource_eq_write hashFn root key false fs meta cfg content hm hc hs hcond
      rw [hw] at h1
      have hfs1 : fs1 = saveMeta
          { meta with
              prompts :=
                alistSet meta.prompts key
                  { cfg with
                      last_hash := some (hashFn content),
                      last_version :=
                        nextVersion key cfg.version_dir (isManagedByRoot root cfg.version_dir) fs } }
          (dirWrite fs cfg.version_dir
            (versionPathName key
              (nextVersion key cfg.version_dir (isManagedByRoot root cfg.version_dir) fs)
              (isManagedByRoot root cfg.version_dir)) content) := (congrArg Prod.snd h1).symm
      set cfg1 : PromptConfig :=
        { cfg with
            last_hash := some (hashFn content),
            last_version :=
              nextVersion key cfg.version_dir (isManagedByRoot root cfg.version_dir) fs } with hcfg1
      set meta1 : MetaDoc := { meta with prompts := alistSet meta.prompts key cfg1 } with hmeta1
      have hm1 : loadMeta fs1 = .ok meta1 := by
        rw [hfs1]
        exact loadMeta_save_ok meta1 _ (loadMeta_schema fs meta hm)
      have hc1 : alistGet meta1.prompts key = some cfg1 := by
        rw [hmeta1]
        exact alistGet_set_self meta.prompts key cfg1
      have hs1 : alistGet fs1.srcFiles cfg1.source_file = some content := by
        rw [hfs1]
        exact hs
      have hh1 : cfg1.last_hash = some (hashFn content) := rfl
      have hnoop1 := syncFromSource_eq_noop hashFn root key fs1 meta1 cfg1 content hm1 hc1 hs1 hh1
      rw [hnoop1]
      exact ⟨rfl, _, rfl, rfl, rfl⟩

/-- C3: for every tracked key whose source file exists, sync with force true
creates exactly one new version file (live-scanned version count increases by
exactly one), even when the content is unchanged, and returns the old and new
version numbers. -/
theorem sync_force_creates_one (hashFn : String → String) (root key : String) (fs : FS)
    (meta : MetaDoc) (cfg : PromptConfig) (content : String)
    (hm : loadMeta fs = .ok meta) (hc : alistGet meta.prompts key = some cfg)
    (hs : alistGet fs.srcFiles cfg.source_file = some content) :
    ∃ r fs1, syncFromSource hashFn root key true fs = (.ok r, fs1) ∧
      r.changed = true ∧ r.old_version = some cfg.last_version ∧
      r.new_version =
        some (nextVersion key cfg.version_dir (isManagedByRoot root cfg.version_dir) fs) ∧
      (scanVersions key cfg.version_dir (isManagedByRoot root cfg.version_dir) fs1).length =
        (scanVersions key cfg.version_dir (isManagedByRoot root cfg.version_dir) fs).length + 1 := by
  have hcond : (!true && (some (hashFn content) == cfg.last_hash)) = false := by simp
  have hw := syncFromSource_eq_write hashFn root key true fs meta cfg content hm hc hs hcond
  refine ⟨_, _, hw, rfl, rfl, rfl, ?_⟩
  rw [scan_saveMeta, scan_dirWrite_fresh key cfg.version_dir
    (isManagedByRoot root cfg.version_dir) fs
    (nextVersion key cfg.version_dir (isManagedByRoot root cfg.version_dir) fs) content
    (scan_fst_lt_next key cfg.version_dir (isManagedByRoot root cfg.version_dir) fs)]
  simp

lemma trackSource_eq (hashFn : String → String) (root key source_file : String)
    (vdir : Option String) (fs : FS) (meta : MetaDoc) (content : String)
    (hm : loadMeta (ensureInitialized root fs) = .ok meta)
    (hk : alistGet meta.prompts key = none)
    (hs : alistGet (ensureInitialized root fs).srcFiles source_file = some content) :
    trackSource hashFn root key source_file vdir fs =
      (let fs0 := ensureInitialized root fs
       let verDir := vdir.getD (root ++ "/" ++ key)
       let fs1 := mkdirFS fs0 verDir
       let managed := isManagedByRoot root verDir
       let nextVer := nextVersion key verDir managed fs1
       let name := versionPathName key nextVer managed
       let fs2 := dirWrite fs1 verDir name content
       let cfg : PromptConfig :=
         { source_file := source_file, version_dir := verDir,
           last_hash := some (hashFn content), last_version := nextVer }
       let fs3 := saveMeta { meta with prompts := alistSet meta.prompts key cfg } fs2
       (.ok { key := key, source_file := source_file, version_dir := verDir,
              managed_by_root := managed }, fs3)) := by
  cases vdir with
  | none =>
    simp only [trackSource, hm, hk, hs, Option.isSome_none, Bool.false_eq_true, if_false,
      Option.getD_none]
  | some d =>
    simp only [trackSource, hm, hk, hs, Option.isSome_none, Bool.false_eq_true, if_false,
      Option.getD_some]

lemma readVersion_latest (root key : String) (fs : FS) (meta : MetaDoc) (cfg : PromptConfig)
    (p : Nat × String)
    (hm : loadMeta fs = .ok meta) (hc : alistGet meta.prompts key = some cfg)
    (hlast : (scanVersions key cfg.version_dir (isManagedByRoot root cfg.version_dir) fs).getLast?
      = some p) :
    readVersion root key none fs = .ok p.2 := by
  simp only [readVersion, getPromptRef_eq root key fs meta cfg hm hc, refOf, hlast]

/-- C5: for every untracked key and existing readable source file, track
followed immediately by a latest-version read returns exactly the content the
source file had at track time. -/
theorem track_then_read (hashFn : String → String) (root key source_file : String)
    (vdir : Option String) (fs : FS) (meta : MetaDoc) (content : String)
    (hm : loadMeta (ensureInitialized root fs) = .ok meta)
    (hk : alistGet meta.prompts key = none)
    (hs : alistGet (ensureInitialized root fs).srcFiles source_file = some content) :
    ∃ ref fs1, trackSource hashFn root key source_file vdir fs = (.ok ref, fs1) ∧
      readVersion root key none fs1 = .ok content := by
  rw [trackSource_eq hashFn root key source_file vdir fs meta content hm hk hs]
  refine ⟨_, _, rfl, ?_⟩
  dsimp only
  set fs0 := ensureInitialized root fs with hfs0
  set verDir : String := vdir.getD (root ++ "/" ++ key) with hverDir
  set fs1 := mkdirFS fs0 verDir with hfs1
  set managed := isManagedByRoot root verDir with hmanaged
  set nextVer := nextVersion key verDir managed fs1 with hnextVer
  set cfg : PromptConfig :=
    { source_file := source_file, version_dir := verDir,
      last_hash := some (hashFn content), last_version := nextVer } with hcfg
  set meta1 : MetaDoc := { meta with prompts := alistSet meta.prompts key cfg } with hmeta1
  have hm3 : loadMeta (saveMeta meta1
      (dirWrite fs1 verDir (versionPathName key nextVer managed) content)) = .ok meta1 :=
    loadMeta_save_ok meta1 _ (loadMeta_schema _ meta hm)
  have hc3 : alistGet meta1.prompts key = some cfg := alistGet_set_self meta.prompts key cfg
  apply readVersion_latest root key _ meta1 cfg (nextVer, content) hm3 hc3
  show (scanVersions key verDir managed (saveMeta meta1
    (dirWrite fs1 verDir (versionPathName key nextVer managed) content))).getLast?
    = some (nextVer, content)
  rw [scan_saveMeta, scan_dirWrite_fresh key verDir managed fs1 nextVer content
    (fun q hq => scan_fst_lt_next key verDir managed fs1 q hq),
    List.getLast?_concat]

/-! ### Concrete states used by the witnesses -/

/-- Stand-in for the SHA-256 fingerprint in concrete witness states (the
engine only compares fingerprints for equality). -/
def hashW : String → String := fun s => "sha256:" ++ s

/-- Engine private root used by the witnesses. -/
def rootW : String := "/repo/.prompts"

/-- Config of the tracked witness key. -/
def cfgW : PromptConfig :=
  { source_file := "/repo/prompt.md", version_dir := "/repo/.prompts/alpha",
    last_hash := some (hashW "hello"), last_version := 1 }

/-- Metadata document of the witness state. -/
def metaW : MetaDoc := { schema := 2, prompts := [("alpha", cfgW)] }

/-- Witness filesystem: one tracked key with one version whose source is in
sync. -/
def fsW : FS :=
  { metaFile := some metaW,
    dirs := [(rootW, []), ("/repo/.prompts/alpha", [(FileName.verFile 1, "hello")])],
    srcFiles := [("/repo/prompt.md", "hello")] }

/-- Witness for C2. -/
theorem sync_unchanged_noop_witness :
    loadMeta fsW = .ok metaW ∧
    alistGet metaW.prompts "alpha" = some cfgW ∧
    alistGet fsW.srcFiles cfgW.source_file = some "hello" ∧
    syncFromSource hashW rootW "alpha" false fsW =
      (.ok { key := "alpha", changed := false, old_version := some 1, new_version := none,
             message := "No changes detected for 'alpha'" }, fsW) :=
  ⟨rfl, rfl, rfl,
    (sync_unchanged_noop hashW rootW "alpha" fsW metaW cfgW "hello" rfl rfl rfl).1 rfl⟩

/-- Witness for C3. -/
theorem sync_force_creates_one_witness :
    loadMeta fsW = .ok metaW ∧
    alistGet metaW.prompts "alpha" = some cfgW ∧
    alistGet fsW.srcFiles cfgW.source_file = some "hello" ∧
    (∃ r fs1, syncFromSource hashW rootW "alpha" true fsW = (.ok r, fs1) ∧
      r.changed = true ∧ r.old_version = some cfgW.last_version ∧
      r.new_version =
        some (nextVersion "alpha" cfgW.version_dir (isManagedByRoot rootW cfgW.version_dir) fsW) ∧
      (scanVersions "alpha" cfgW.version_dir (isManagedByRoot rootW cfgW.version_dir) fs1).length =
        (scanVersions "alpha" cfgW.version_dir (isManagedByRoot rootW cfgW.version_dir) fsW).length
          + 1) :=
  ⟨rfl, rfl, rfl, sync_force_creates_one hashW rootW "alpha" fsW metaW cfgW "hello" rfl rfl rfl⟩

/-- Untracked-key witness filesystem: initialized root, empty metadata, one
readable source file. -/
def fsU : FS :=
  { metaFile := some { schema := 2, prompts := [] },
    dirs := [(rootW, [])],
    srcFiles := [("/repo/new.md", "initial text")] }

/-- Witness for C5. -/
theorem track_then_read_witness :
    loadMeta (ensureInitialized rootW fsU) = .ok { schema := 2, prompts := [] } ∧
    alistGet ({ schema := 2, prompts := [] } : MetaDoc).prompts "beta" = none ∧
    alistGet (ensureInitialized rootW fsU).srcFiles "/repo/new.md" = some "initial text" ∧
    (∃ ref fs1, trackSource hashW rootW "beta" "/repo/new.md" none fsU = (.ok ref, fs1) ∧
      readVersion rootW "beta" none fs1 = .ok "initial text") :=
  ⟨rfl, rfl, rfl,
    track_then_read hashW rootW "beta" "/repo/new.md" none fsU
      { schema := 2, prompts := [] } "initial text" rfl rfl rfl⟩

lemma loadMeta_tracked_metaFile (fs : FS) (meta : MetaDoc) (key : String) (cfg : PromptConfig)
    (hm : loadMeta fs = .ok meta) (hc : alistGet meta.prompts key = some cfg) :
    fs.metaFile = some meta := by
  unfold loadMeta at hm
  cases hmf : fs.metaFile with
  | none =>
    rw [hmf] at hm
    replace hm : Except.ok { schema := SCHEMA_VERSION, prompts := [] } = Except.ok meta := hm
    injection hm with hm
    rw [← hm] at hc
    exact absurd hc (by simp)
  | some m =>
    rw [hmf] at hm
    replace hm : (if m.schema ≠ SCHEMA_VERSION then
        Except.error (Err.schemaMismatch (schemaMismatchMsg m.schema))
      else Except.ok m) = Except.ok meta := hm
    split at hm
    · exact Except.noConfusion hm
    · injection hm with hm
      rw [hm]

lemma ensureInitialized_eq_self (root : String) (fs : FS)
    (hdir : (alistGet fs.dirs root).isSome = true) (hmf : fs.metaFile.isSome = true) :
    ensureInitialized root fs = fs := by
  unfold ensureInitialized mkdirFS
  cases h1 : alistGet fs.dirs root with
  | none => rw [h1] at hdir; exact absurd hdir (by simp)
  | some es =>
    cases h2 : fs.metaFile with
    | none => rw [h2] at hmf; exact absurd hmf (by simp)
    | some m => simp [h2]

/-- C6: for every already-tracked (valid) key, calling track again with that
key fails with AlreadyExists, at the service layer naming the existing source
file, and makes no persistent mutation at either layer. -/
theorem track_existing_fails (hashFn : String → String) (root source_file key : String)
    (vdir : Option String) (fs : FS) (meta : MetaDoc) (cfg : PromptConfig)
    (hvalid : isValidKey key = true)
    (hm : loadMeta fs = .ok meta) (hc : alistGet meta.prompts key = some cfg)
    (hdir : (alistGet fs.dirs root).isSome = true) :
    serviceTrackSource hashFn root source_file key vdir fs =
      (.error (.promptAlreadyExists ("Prompt with key '" ++ key ++
        "' already exists with source '" ++ cfg.source_file ++
        "'. Use a different --key or untrack the existing prompt first.")), fs) ∧
    trackSource hashFn root key source_file vdir fs =
      (.error (.promptAlreadyExists ("Prompt key '" ++ key ++ "' already exists.")), fs) := by
  have hmf : fs.metaFile.isSome = true := by
    rw [loadMeta_tracked_metaFile fs meta key cfg hm hc]
    rfl
  have hinit : ensureInitialized root fs = fs := ensureInitialized_eq_self root fs hdir hmf
  constructor
  · simp only [serviceTrackSource, hvalid, Bool.not_true, Bool.false_eq_true, if_false,
      keyExists, hm, Except.map, hc, Option.isSome_some,
      getPromptRef_eq root key fs meta cfg hm hc, refOf]
  · simp only [trackSource, hinit, hm, hc, Option.isSome_some, if_true]

/-- Witness for C6. -/
theorem track_existing_fails_witness :
    isValidKey "alpha" = true ∧
    loadMeta fsW = .ok metaW ∧
    alistGet metaW.prompts "alpha" = some cfgW ∧
    (alistGet fsW.dirs rootW).isSome = true ∧
    serviceTrackSource hashW rootW "/repo/other.md" "alpha" none fsW =
      (.error (.promptAlreadyExists
        "Prompt with key 'alpha' already exists with source '/repo/prompt.md'. Use a different --key or untrack the existing prompt first."),
       fsW) ∧
    trackSource hashW rootW "alpha" "/repo/other.md" none fsW =
      (.error (.promptAlreadyExists "Prompt key 'alpha' already exists."), fsW) :=
  ⟨by decide, rfl, rfl, rfl,
    (track_existing_fails hashW rootW "/repo/other.md" "alpha" none fsW metaW cfgW
      (by decide) rfl rfl rfl).1,
    (track_existing_fails hashW rootW "/repo/other.md" "alpha" none fsW metaW cfgW
      (by decide) rfl rfl rfl).2⟩

/-- Well-formedness of a directory as a real filesystem guarantees it: at
most one entry per file name. -/
def DirWF (fs : FS) (dir : String) : Prop :=
  (((alistGet fs.dirs dir).getD []).map Prod.fst).Nodup

instance (fs : FS) (dir : String) : Decidable (DirWF fs dir) := by
  unfold DirWF
  infer_instance

lemma versionPathName_inj (key : String) (m : Bool) (n n2 : Nat)
    (h : versionPathName key n m = versionPathName key n2 m) : n = n2 := by
  cases m <;> simpa [versionPathName] using h

lemma parse_filterMap_nodup (key : String) (m : Bool) (es : List (FileName × String))
    (h : (es.map Prod.fst).Nodup) :
    ((es.filterMap (fun e => (parseName key m e.1).map (fun n => (n, e.2)))).map Prod.fst).Nodup := by
  induction es with
  | nil => simp
  | cons e es ih =>
    rw [List.map_cons, List.nodup_cons] at h
    obtain ⟨hhead, htail⟩ := h
    cases hp : parseName key m e.1 with
    | none =>
      rw [List.filterMap_cons_none (by rw [hp]; rfl)]
      exact ih htail
    | some n =>
      rw [List.filterMap_cons_some (b := (n, e.2)) (by rw [hp]; rfl),
        List.map_cons, List.nodup_cons]
      refine ⟨?_, ih htail⟩
      intro hmem
      rcases List.mem_map.mp hmem with ⟨pr, hpr, hfst⟩
      rcases List.mem_filterMap.mp hpr with ⟨e2, he2, hpe2⟩
      cases hp2 : parseName key m e2.1 with
      | none => rw [hp2] at hpe2; cases hpe2
      | some n2 =>
        rw [hp2, Option.map_some'] at hpe2
        injection hpe2 with hpe2
        have hn2 : n2 = n := by rw [← hpe2] at hfst; exact hfst
        subst hn2
        have h1 : e.1 = versionPathName key n2 m := parseName_eq_versionPathName key m e.1 n2 hp
        have h2 : e2.1 = versionPathName key n2 m := parseName_eq_versionPathName key m e2.1 n2 hp2
        have : e.1 ∈ es.map Prod.fst := by
          rw [h1, ← h2]
          exact List.mem_map_of_mem Prod.fst he2
        exact hhead this

lemma scan_nodup_fst (key d : String) (m : Bool) (fs : FS) (hwf : DirWF fs d) :
    ((scanVersions key d m fs).map Prod.fst).Nodup := by
  rw [scan_eq_sort]
  have hperm := (sortByFst_perm (((alistGet fs.dirs d).getD []).filterMap
    (fun e => (parseName key m e.1).map (fun n => (n, e.2))))).map Prod.fst
  exact hperm.nodup_iff.mpr (parse_filterMap_nodup key m _ hwf)

lemma filterMap_parse_filter (key : String) (m : Bool) (es : List (FileName × String))
    (lastVer : Nat) :
    (es.filter (fun e => decide (e.1 ≠ versionPathName key lastVer m))).filterMap
        (fun e => (parseName key m e.1).map (fun n => (n, e.2))) =
      (es.filterMap (fun e => (parseName key m e.1).map (fun n => (n, e.2)))).filter
        (fun pr => decide (pr.1 ≠ lastVer)) := by
  induction es with
  | nil => rfl
  | cons e es ih =>
    cases hp : parseName key m e.1 with
    | none =>
      have hne : e.1 ≠ versionPathName key lastVer m := by
        intro hcontra
        rw [hcontra, parse_versionPathName] at hp
        cases hp
      rw [List.filter_cons_of_pos
          (p := fun e : FileName × String => decide (e.1 ≠ versionPathName key lastVer m)) (decide_eq_true hne),
        List.filterMap_cons_none (by rw [hp]; rfl),
        List.filterMap_cons_none (by rw [hp]; rfl), ih]
    | some n =>
      have hname : e.1 = versionPathName key n m := parseName_eq_versionPathName key m e.1 n hp
      by_cases hv : n = lastVer
      · subst hv
        rw [List.filter_cons_of_neg
            (p := fun e : FileName × String => decide (e.1 ≠ versionPathName key n m)) (a := e) (by simp [hname]),
          List.filterMap_cons_some (b := (n, e.2)) (by rw [hp]; rfl),
          List.filter_cons_of_neg
            (p := fun pr : Nat × String => decide (pr.1 ≠ n)) (a := (n, e.2)) (by simp), ih]
      · have hne : e.1 ≠ versionPathName key lastVer m := by
          rw [hname]
          intro hcontra
          exact hv (versionPathName_inj key m n lastVer hcontra)
        rw [List.filter_cons_of_pos
            (p := fun e : FileName × String => decide (e.1 ≠ versionPathName key lastVer m)) (decide_eq_true hne),
          List.filterMap_cons_some (b := (n, e.2)) (by rw [hp]; rfl),
          List.filterMap_cons_some (b := (n, e.2)) (by rw [hp]; rfl),
          List.filter_cons_of_pos
            (p := fun pr : Nat × String => decide (pr.1 ≠ lastVer)) (a := (n, e.2)) (decide_eq_true hv), ih]

lemma sorted_nodup_fst_eq {α : Type} (l₁ : List (Nat × α)) : ∀ (l₂ : List (Nat × α)),
    List.Perm l₁ l₂ →
    List.Pairwise (fun a b : Nat × α => a.1 ≤ b.1) l₁ →
    List.Pairwise (fun a b : Nat × α => a.1 ≤ b.1) l₂ →
    (l₁.map Prod.fst).Nodup → l₁ = l₂ := by
  induction l₁ with
  | nil =>
    intro l₂ hp _ _ _
    exact hp.nil_eq
  | cons x l₁ ih =>
    intro l₂ hp hs1 hs2 hnd
    cases l₂ with
    | nil => exact absurd hp.symm.nil_eq (by simp)
    | cons y l₂ =>
      have hxy : x = y := by
        by_contra hne
        have hxmem : x ∈ y :: l₂ := hp.mem_iff.mp (List.mem_cons_self _ _)
        have hx2 : x ∈ l₂ := by
          rcases List.mem_cons.mp hxmem with h | h
          · exact absurd h hne
          · exact h
        have hymem : y ∈ x :: l₁ := hp.symm.mem_iff.mp (List.mem_cons_self _ _)
        have hy1 : y ∈ l₁ := by
          rcases List.mem_cons.mp hymem with h | h
          · exact absurd h.symm hne
          · exact h
        have hle1 : x.1 ≤ y.1 := (List.pairwise_cons.mp hs1).1 y hy1
        have hle2 : y.1 ≤ x.1 := (List.pairwise_cons.mp hs2).1 x hx2
        have heq : y.1 = x.1 := Nat.le_antisymm hle2 hle1
        have : x.1 ∈ l₁.map Prod.fst := heq ▸ List.mem_map_of_mem Prod.fst hy1
        exact (List.nodup_cons.mp (by simpa using hnd)).1 this
      subst hxy
      have htails := hp.cons_inv
      have := ih l₂ htails (List.pairwise_cons.mp hs1).2 (List.pairwise_cons.mp hs2).2
        (List.nodup_cons.mp (by simpa using hnd)).2
      rw [this]

lemma metaFile_dirRemove (fs : FS) (d : String) (n : FileName) :
    (dirRemove fs d n).metaFile = fs.metaFile := by
  unfold dirRemove
  cases alistGet fs.dirs d <;> rfl

lemma loadMeta_metaFile_congr (fs1 fs2 : FS) (h : fs1.metaFile = fs2.metaFile) :
    loadMeta fs1 = loadMeta fs2 := by
  unfold loadMeta
  rw [h]

lemma scan_dirRemove_last (key d : String) (m : Bool) (fs : FS) (hwf : DirWF fs d)
    (ps : List (Nat × String)) (p : Nat × String)
    (hscan : scanVersions key d m fs = ps ++ [p]) :
    scanVersions key d m (dirRemove fs d (versionPathName key p.1 m)) = ps := by
  cases h : alistGet fs.dirs d with
  | none =>
    rw [scan_eq_sort, h] at hscan
    exact absurd hscan.symm (by simp [sortByFst])
  | some es =>
    have hes : (alistGet fs.dirs d).getD [] = es := by rw [h]; rfl
    set f : FileName × String → Option (Nat × String) :=
      fun e => (parseName key m e.1).map (fun n => (n, e.2)) with hf
    set u := es.filterMap f with hu
    have hpairs : scanVersions key d m fs = sortByFst u := by
      rw [scan_eq_sort, hes]
    set pred : Nat × String → Bool := fun pr => decide (pr.1 ≠ p.1) with hpred
    have hremove : scanVersions key d m (dirRemove fs d (versionPathName key p.1 m)) =
        sortByFst (u.filter pred) := by
      unfold dirRemove
      rw [h, scan_eq_sort]
      have hget : alistGet (alistSet fs.dirs d
          (es.filter (fun e => decide (e.1 ≠ versionPathName key p.1 m)))) d =
          some (es.filter (fun e => decide (e.1 ≠ versionPathName key p.1 m))) :=
        alistGet_set_self _ _ _
      show sortByFst ((alistGet (alistSet fs.dirs d
          (es.filter (fun e => decide (e.1 ≠ versionPathName key p.1 m)))) d).getD []
          |>.filterMap f) = _
      rw [hget]
      show sortByFst ((es.filter
        (fun e => decide (e.1 ≠ versionPathName key p.1 m))).filterMap f) = _
      rw [hf, filterMap_parse_filter key m es p.1]
    rw [hremove]
    -- nodup facts
    have hwfes : (es.map Prod.fst).Nodup := by
      unfold DirWF at hwf
      rw [hes] at hwf
      exact hwf
    have hund : (u.map Prod.fst).Nodup := by
      rw [hu, hf]
      exact parse_filterMap_nodup key m es hwfes
    have hpairs_nd : ((ps ++ [p]).map Prod.fst).Nodup := by
      rw [← hscan]
      exact scan_nodup_fst key d m fs hwf
    have hp_notmem : ∀ x ∈ ps, x.1 ≠ p.1 := by
      intro x hx
      rw [List.map_append] at hpairs_nd
      have := (List.pairwise_append.mp hpairs_nd).2.2
      exact this x.1 (List.mem_map_of_mem Prod.fst hx) p.1 (by simp)
    -- permutation chain
    have hperm_u : List.Perm u (ps ++ [p]) := by
      rw [← hscan, hpairs]
      exact (sortByFst_perm u).symm
    have hfilter_pairs : (ps ++ [p]).filter pred = ps := by
      rw [List.filter_append]
      have h1 : ps.filter pred = ps :=
        List.filter_eq_self.mpr (fun x hx => decide_eq_true (hp_notmem x hx))
      have h2 : [p].filter pred = [] := by
        simp [hpred]
      rw [h1, h2, List.append_nil]
    have hpermA : List.Perm (sortByFst (u.filter pred)) ps := by
      have h3 : List.Perm (u.filter pred) ((ps ++ [p]).filter pred) := hperm_u.filter pred
      rw [hfilter_pairs] at h3
      exact (sortByFst_perm (u.filter pred)).trans h3
    -- sortedness and nodup transfer
    have hsortedA : List.Pairwise (fun a b : Nat × String => a.1 ≤ b.1)
        (sortByFst (u.filter pred)) := sortByFst_sorted _
    have hsorted_ps : List.Pairwise (fun a b : Nat × String => a.1 ≤ b.1) ps := by
      have := scan_sorted key d m fs
      rw [hscan] at this
      exact this.sublist (List.sublist_append_left ps [p])
    have hndA : ((sortByFst (u.filter pred)).map Prod.fst).Nodup := by
      have hsub : ((u.filter pred).map Prod.fst).Sublist (u.map Prod.fst) :=
        (List.filter_sublist u).map Prod.fst
      have hnd2 : ((u.filter pred).map Prod.fst).Nodup := hund.sublist hsub
      exact (((sortByFst_perm (u.filter pred)).map Prod.fst).nodup_iff).mpr hnd2
    exact sorted_nodup_fst_eq _ ps hpermA hsortedA hsorted_ps hndA

/-- C7: delete_latest fails with VersionNotFound when the live scan finds no
versions; otherwise it removes exactly the highest-numbered version file
(shrinking the live scan to its prefix), updates the cached last_version to
the next-highest remaining number (0 when none remain), keeps the key
tracked with an unchanged ref, and a subsequent latest read returns the
remaining highest version's content. -/
theorem delete_latest_spec (root key : String) (fs : FS) (meta : MetaDoc) (cfg : PromptConfig)
    (hm : loadMeta fs = .ok meta) (hc : alistGet meta.prompts key = some cfg)
    (hwf : DirWF fs cfg.version_dir) :
    (scanVersions key cfg.version_dir (isManagedByRoot root cfg.version_dir) fs = [] →
      deleteLatest root key fs =
        (.error (.versionNotFound ("No versions for key: " ++ key)), fs)) ∧
    (∀ ps p,
      scanVersions key cfg.version_dir (isManagedByRoot root cfg.version_dir) fs = ps ++ [p] →
      ∃ fs1,
        deleteLatest root key fs =
          (.ok { key := key, version := p.1, dir := cfg.version_dir,
                 name := versionPathName key p.1 (isManagedByRoot root cfg.version_dir) }, fs1) ∧
        scanVersions key cfg.version_dir (isManagedByRoot root cfg.version_dir) fs1 = ps ∧
        getPromptRef root key fs1 = .ok (refOf root key cfg) ∧
        (∃ meta1, loadMeta fs1 = .ok meta1 ∧
          alistGet meta1.prompts key = some { cfg with
            last_version := match ps.getLast? with | some q => q.1 | none => 0 }) ∧
        (∀ q, ps.getLast? = some q → readVersion root key none fs1 = .ok q.2)) := by
  have href := getPromptRef_eq root key fs meta cfg hm hc
  constructor
  · intro hempty
    simp only [deleteLatest, href, refOf, hempty, List.getLast?_nil]
  · intro ps p hscan
    set managed := isManagedByRoot root cfg.version_dir with hmanaged
    set name := versionPathName key p.1 managed with hname
    have hload1 : loadMeta (dirRemove fs cfg.version_dir name) = .ok meta := by
      rw [loadMeta_metaFile_congr (dirRemove fs cfg.version_dir name) fs
        (metaFile_dirRemove fs cfg.version_dir name)]
      exact hm
    set cfg1 : PromptConfig :=
      { cfg with last_version := match ps.getLast? with | some q => q.1 | none => 0 } with hcfg1
    set meta1 : MetaDoc := { meta with prompts := alistSet meta.prompts key cfg1 } with hmeta1
    have hdel : deleteLatest root key fs =
        (.ok { key := key, version := p.1, dir := cfg.version_dir, name := name },
         saveMeta meta1 (dirRemove fs cfg.version_dir name)) := by
      simp only [deleteLatest, href, refOf, hscan, List.getLast?_concat, hload1, hc,
        List.dropLast_concat, ← hname, ← hcfg1, ← hmeta1]
    refine ⟨saveMeta meta1 (dirRemove fs cfg.version_dir name), hdel, ?_, ?_, ?_, ?_⟩
    · rw [scan_saveMeta]
      exact scan_dirRemove_last key cfg.version_dir managed fs hwf ps p hscan
    · have hm2 : loadMeta (saveMeta meta1 (dirRemove fs cfg.version_dir name)) = .ok meta1 :=
        loadMeta_save_ok meta1 _ (loadMeta_schema fs meta hm)
      have hc2 : alistGet meta1.prompts key = some cfg1 := alistGet_set_self meta.prompts key cfg1
      exact getPromptRef_eq root key _ meta1 cfg1 hm2 hc2
    · exact ⟨meta1, loadMeta_save_ok meta1 _ (loadMeta_schema fs meta hm),
        alistGet_set_self meta.prompts key cfg1⟩
    · intro q hq
      have hm2 : loadMeta (saveMeta meta1 (dirRemove fs cfg.version_dir name)) = .ok meta1 :=
        loadMeta_save_ok meta1 _ (loadMeta_schema fs meta hm)
      have hc2 : alistGet meta1.prompts key = some cfg1 := alistGet_set_self meta.prompts key cfg1
      apply readVersion_latest root key _ meta1 cfg1 q hm2 hc2
      show (scanVersions key cfg.version_dir managed
        (saveMeta meta1 (dirRemove fs cfg.version_dir name))).getLast? = some q
      rw [scan_saveMeta, scan_dirRemove_last key cfg.version_dir managed fs hwf ps p hscan, hq]

/-- Config of the two-version witness key. -/
def cfgW2 : PromptConfig :=
  { source_file := "/repo/prompt.md", version_dir := "/repo/.prompts/alpha",
    last_hash := some (hashW "hello world"), last_version := 2 }

/-- Metadata document of the two-version witness state. -/
def metaW2 : MetaDoc := { schema := 2, prompts := [("alpha", cfgW2)] }

/-- Witness filesystem holding two versions of one tracked key. -/
def fsW2 : FS :=
  { metaFile := some metaW2,
    dirs := [(rootW, []),
             ("/repo/.prompts/alpha", [(FileName.verFile 1, "hello"),
                                       (FileName.verFile 2, "hello world")])],
    srcFiles := [("/repo/prompt.md", "hello world")] }

/-- Witness for C7. -/
theorem delete_latest_spec_witness :
    loadMeta fsW2 = .ok metaW2 ∧
    alistGet metaW2.prompts "alpha" = some cfgW2 ∧
    DirWF fsW2 cfgW2.version_dir ∧
    scanVersions "alpha" cfgW2.version_dir (isManagedByRoot rootW cfgW2.version_dir) fsW2 =
      [(1, "hello")] ++ [(2, "hello world")] ∧
    (∃ fs1, deleteLatest rootW "alpha" fsW2 =
        (.ok { key := "alpha", version := 2, dir := cfgW2.version_dir,
               name := versionPathName "alpha" 2 (isManagedByRoot rootW cfgW2.version_dir) },
         fs1) ∧
      scanVersions "alpha" cfgW2.version_dir (isManagedByRoot rootW cfgW2.version_dir) fs1 =
        [(1, "hello")] ∧
      getPromptRef rootW "alpha" fs1 = .ok (refOf rootW "alpha" cfgW2) ∧
      (∃ meta1, loadMeta fs1 = .ok meta1 ∧
        alistGet meta1.prompts "alpha" = some { cfgW2 with last_version := 1 }) ∧
      readVersion rootW "alpha" none fs1 = .ok "hello") := by
  refine ⟨rfl, rfl, by decide, by decide, ?_⟩
  obtain ⟨fs1, h1, h2, h3, h4, h5⟩ :=
    (delete_latest_spec rootW "alpha" fsW2 metaW2 cfgW2 rfl rfl (by decide)).2
      [(1, "hello")] (2, "hello world") (by decide)
  exact ⟨fs1, h1, h2, h3, h4, h5 (1, "hello") rfl⟩

/-- C8: loading the metadata document returns an empty current-schema
document when the file is absent, fails with the typed schema-mismatch error
(whose message instructs the caller to migrate) whenever the stored schema
differs from the expected one, and every engine operation that loads
metadata then fails fast with that error. -/
theorem schema_gate (hashFn : String → String) (root key source_file content : String)
    (vdir : Option String) (version : Option Nat) (force : Bool) (fs : FS) (m : MetaDoc)
    (hmf : fs.metaFile = some m) (hbad : m.schema ≠ SCHEMA_VERSION) :
    (∀ fs2 : FS, fs2.metaFile = none →
      loadMeta fs2 = .ok { schema := SCHEMA_VERSION, prompts := [] }) ∧
    loadMeta fs = .error (.schemaMismatch (schemaMismatchMsg m.schema)) ∧
    getPromptRef root key fs = .error (.schemaMismatch (schemaMismatchMsg m.schema)) ∧
    keyExists key fs = .error (.schemaMismatch (schemaMismatchMsg m.schema)) ∧
    readVersion root key version fs = .error (.schemaMismatch (schemaMismatchMsg m.schema)) ∧
    syncFromSource hashFn root key force fs =
      (.error (.schemaMismatch (schemaMismatchMsg m.schema)), fs) ∧
    writeNewVersion hashFn root key content fs =
      (.error (.schemaMismatch (schemaMismatchMsg m.schema)), fs) ∧
    deleteLatest root key fs = (.error (.schemaMismatch (schemaMismatchMsg m.schema)), fs) ∧
    listPrompts root fs =
      (.error (.schemaMismatch (schemaMismatchMsg m.schema)), mkdirFS fs root) ∧
    trackSource hashFn root key source_file vdir fs =
      (.error (.schemaMismatch (schemaMismatchMsg m.schema)), mkdirFS fs root) := by
  have hload : loadMeta fs = .error (.schemaMismatch (schemaMismatchMsg m.schema)) := by
    unfold loadMeta
    rw [hmf]
    show (if m.schema ≠ SCHEMA_VERSION then
        Except.error (Err.schemaMismatch (schemaMismatchMsg m.schema))
      else Except.ok m) = _
    rw [if_pos hbad]
  have hinit : ensureInitialized root fs = mkdirFS fs root := by
    have hmk : (mkdirFS fs root).metaFile = some m := by
      unfold mkdirFS
      cases alistGet fs.dirs root <;> simpa using hmf
    simp only [ensureInitialized, hmk]
  have hload2 : loadMeta (mkdirFS fs root) = .error (.schemaMismatch (schemaMismatchMsg m.schema)) := by
    rw [loadMeta_metaFile_congr (mkdirFS fs root) fs ?hmeq]
    · exact hload
    case hmeq =>
      unfold mkdirFS
      cases alistGet fs.dirs root <;> rfl
  refine ⟨?_, hload, ?_, ?_, ?_, ?_, ?_, ?_, ?_, ?_⟩
  · intro fs2 h2
    unfold loadMeta
    rw [h2]
  · simp only [getPromptRef, hload]
  · simp only [keyExists, hload, Except.map]
  · simp only [readVersion, getPromptRef, hload]
  · simp only [syncFromSource, getPromptRef, hload]
  · simp only [writeNewVersion, getPromptRef, hload]
  · simp only [deleteLatest, getPromptRef, hload]
  · simp only [listPrompts, hinit, hload2]
  · simp only [trackSource, hinit, hload2]

/-- Metadata document with an outdated schema. -/
def metaOld : MetaDoc := { schema := 1, prompts := [] }

/-- Witness filesystem whose metadata document has schema 1. -/
def fsOld : FS := { metaFile := some metaOld, dirs := [], srcFiles := [] }

/-- Witness for C8. -/
theorem schema_gate_witness :
    fsOld.metaFile = some metaOld ∧ metaOld.schema ≠ SCHEMA_VERSION ∧
    loadMeta fsOld = .error (.schemaMismatch (schemaMismatchMsg 1)) ∧
    getPromptRef rootW "alpha" fsOld = .error (.schemaMismatch (schemaMismatchMsg 1)) ∧
    syncFromSource hashW rootW "alpha" false fsOld =
      (.error (.schemaMismatch (schemaMismatchMsg 1)), fsOld) :=
  ⟨rfl, by decide,
    (schema_gate hashW rootW "alpha" "/repo/prompt.md" "text" none none false fsOld metaOld
      rfl (by decide)).2.1,
    (schema_gate hashW rootW "alpha" "/repo/prompt.md" "text" none none false fsOld metaOld
      rfl (by decide)).2.2.1,
    (schema_gate hashW rootW "alpha" "/repo/prompt.md" "text" none none false fsOld metaOld
      rfl (by decide)).2.2.2.2.2.1⟩

lemma writeNewVersion_eq (hashFn : String → String) (root key content : String) (fs : FS)
    (meta : MetaDoc) (cfg : PromptConfig)
    (hm : loadMeta fs = .ok meta) (hc : alistGet meta.prompts key = some cfg) :
    writeNewVersion hashFn root key content fs =
      (let fs1 := writeSrc fs cfg.source_file content
       let nextVer := nextVersion key cfg.version_dir (isManagedByRoot root cfg.version_dir) fs1
       let name := versionPathName key nextVer (isManagedByRoot root cfg.version_dir)
       let fs2 := dirWrite fs1 cfg.version_dir name content
       let fs3 := saveMeta
         { meta with
             prompts :=
               alistSet meta.prompts key
                 { cfg with last_hash := some (hashFn content), last_version := nextVer } } fs2
       (.ok { key := key, version := nextVer, dir := cfg.version_dir, name := name }, fs3)) := by
  simp only [writeNewVersion, getPromptRef_eq root key fs meta cfg hm hc, refOf, hm, hc]

lemma nextVersion_writeSrc (key d : String) (m : Bool) (p c : String) (fs : FS) :
    nextVersion key d m (writeSrc fs p c) = nextVersion key d m fs := by
  unfold nextVersion
  rw [scan_writeSrc]

/-- C9: for every tracked key, the high-level update raises NoContentProvided
for the empty string before any persistent mutation, while the engine's
write_new_version itself accepts the empty string and writes it to both the
source file and a new version file. -/
theorem update_empty_vs_engine (hashFn : String → String) (root key : String) (fs : FS)
    (meta : MetaDoc) (cfg : PromptConfig)
    (hm : loadMeta fs = .ok meta) (hc : alistGet meta.prompts key = some cfg) :
    updatePrompt hashFn root key "" fs =
      (.error (.noContentProvided "No prompt text provided."), fs) ∧
    (∃ v fs1, writeNewVersion hashFn root key "" fs = (.ok v, fs1) ∧
      alistGet fs1.srcFiles cfg.source_file = some "" ∧
      readVersion root key none fs1 = .ok "" ∧
      (scanVersions key cfg.version_dir (isManagedByRoot root cfg.version_dir) fs1).length =
        (scanVersions key cfg.version_dir (isManagedByRoot root cfg.version_dir) fs).length
          + 1) := by
  constructor
  · rfl
  · rw [writeNewVersion_eq hashFn root key "" fs meta cfg hm hc]
    dsimp only
    set managed := isManagedByRoot root cfg.version_dir with hmanaged
    set fs1 := writeSrc fs cfg.source_file "" with hfs1
    set nextVer := nextVersion key cfg.version_dir managed fs1 with hnextVer
    set cfg1 : PromptConfig :=
      { cfg with last_hash := some (hashFn ""), last_version := nextVer } with hcfg1
    set meta1 : MetaDoc := { meta with prompts := alistSet meta.prompts key cfg1 } with hmeta1
    have hscan2 : scanVersions key cfg.version_dir managed
        (saveMeta meta1 (dirWrite fs1 cfg.version_dir
          (versionPathName key nextVer managed) "")) =
        scanVersions key cfg.version_dir managed fs1 ++ [(nextVer, "")] := by
      rw [scan_saveMeta]
      exact scan_dirWrite_fresh key cfg.version_dir managed fs1 nextVer ""
        (fun q hq => scan_fst_lt_next key cfg.version_dir managed fs1 q hq)
    refine ⟨_, _, rfl, ?_, ?_, ?_⟩
    · exact alistGet_set_self fs.srcFiles cfg.source_file ""
    · have hm2 : loadMeta (saveMeta meta1 (dirWrite fs1 cfg.version_dir
          (versionPathName key nextVer managed) "")) = .ok meta1 :=
        loadMeta_save_ok meta1 _ (loadMeta_schema fs meta hm)
      have hc2 : alistGet meta1.prompts key = some cfg1 := alistGet_set_self meta.prompts key cfg1
      apply readVersion_latest root key _ meta1 cfg1 (nextVer, "") hm2 hc2
      show (scanVersions key cfg.version_dir managed _).getLast? = some (nextVer, "")
      rw [hscan2, List.getLast?_concat]
    · rw [hscan2, List.length_append]
      show (scanVersions key cfg.version_dir managed fs1).length + 1 = _
      rw [hfs1, scan_writeSrc]

/-- Witness for C9. -/
theorem update_empty_vs_engine_witness :
    loadMeta fsW = .ok metaW ∧
    alistGet metaW.prompts "alpha" = some cfgW ∧
    updatePrompt hashW rootW "alpha" "" fsW =
      (.error (.noContentProvided "No prompt text provided."), fsW) ∧
    (∃ v fs1, writeNewVersion hashW rootW "alpha" "" fsW = (.ok v, fs1) ∧
      alistGet fs1.srcFiles cfgW.source_file = some "" ∧
      readVersion rootW "alpha" none fs1 = .ok "" ∧
      (scanVersions "alpha" cfgW.version_dir (isManagedByRoot rootW cfgW.version_dir) fs1).length =
        (scanVersions "alpha" cfgW.version_dir (isManagedByRoot rootW cfgW.version_dir) fsW).length
          + 1) :=
  ⟨rfl, rfl,
    (update_empty_vs_engine hashW rootW "alpha" fsW metaW cfgW rfl rfl).1,
    (update_empty_vs_engine hashW rootW "alpha" fsW metaW cfgW rfl rfl).2⟩

/-- C10: diff_versions does not fail on an unrecognized granularity; it
behaves exactly as if the granularity were word. -/
theorem diff_granularity_fallback (root key : String) (v1 v2 : Nat) (g : String) (fs : FS)
    (h1 : g ≠ "word") (h2 : g ≠ "char") :
    diffVersions root key v1 v2 g fs = diffVersions root key v1 v2 "word" fs := by
  unfold diffVersions
  cases hra : readVersion root key (some v1) fs with
  | error e => rfl
  | ok a =>
    cases hrb : readVersion root key (some v2) fs with
    | error e => rfl
    | ok b =>
      have hg : (g != "word" && g != "char") = true := by
        simp [h1, h2]
      simp [hg]

/-- Witness for C10. -/
theorem diff_granularity_fallback_witness :
    ("tokens" : String) ≠ "word" ∧ ("tokens" : String) ≠ "char" ∧
    diffVersions rootW "alpha" 1 1 "tokens" fsW = diffVersions rootW "alpha" 1 1 "word" fsW :=
  ⟨by decide, by decide,
    diff_granularity_fallback rootW "alpha" 1 1 "tokens" fsW (by decide) (by decide)⟩

lemma scan_ensureInitialized (key d : String) (m : Bool) (root : String) (fs : FS) :
    scanVersions key d m (ensureInitialized root fs) = scanVersions key d m fs := by
  unfold ensureInitialized
  cases h : (mkdirFS fs root).metaFile with
  | none =>
    simp only [h]
    rw [scan_saveMeta, scan_mkdirFS]
  | some m2 =>
    simp only [h]
    rw [scan_mkdirFS]

/-- C4 counterexample: force-sync creates version 2, delete_latest removes
it, and the next force-sync assigns version number 2 again — a created
version number equal to (not strictly greater than) one previously created
for the key and since deleted. -/
theorem version_reuse_counterexample :
    ∃ r1 fs1 v fs2 r2 fs3,
      syncFromSource hashW rootW "alpha" true fsW = (.ok r1, fs1) ∧
      r1.new_version = some 2 ∧
      deleteLatest rootW "alpha" fs1 = (.ok v, fs2) ∧ v.version = 2 ∧
      syncFromSource hashW rootW "alpha" true fs2 = (.ok r2, fs3) ∧
      r2.new_version = some 2 ∧ ¬ (2 : Nat) > 2 := by
  refine ⟨_, _, _, _, _, _, rfl, rfl, rfl, rfl, rfl, rfl, by omega⟩

/-- C4 amended: every version-creating operation (sync, write_new_version,
track) assigns a version number strictly greater than every version present
in the live directory scan at the moment of creation; numbers of versions
that have since been deleted are not remembered and may be reused. -/
theorem version_monotone_live_scan (hashFn : String → String)
    (root key source_file content : String) (vdir : Option String) (force : Bool) (fs : FS) :
    (∀ meta cfg r fs1 n, loadMeta fs = .ok meta → alistGet meta.prompts key = some cfg →
      syncFromSource hashFn root key force fs = (.ok r, fs1) → r.new_version = some n →
      ∀ q ∈ scanVersions key cfg.version_dir (isManagedByRoot root cfg.version_dir) fs,
        q.1 < n) ∧
    (∀ meta cfg v fs1, loadMeta fs = .ok meta → alistGet meta.prompts key = some cfg →
      writeNewVersion hashFn root key content fs = (.ok v, fs1) →
      ∀ q ∈ scanVersions key cfg.version_dir (isManagedByRoot root cfg.version_dir) fs,
        q.1 < v.version) ∧
    (∀ ref fs1 meta1 cfg1, trackSource hashFn root key source_file vdir fs = (.ok ref, fs1) →
      loadMeta fs1 = .ok meta1 → alistGet meta1.prompts key = some cfg1 →
      ∀ q ∈ scanVersions key ref.version_dir ref.managed_by_root fs, q.1 < cfg1.last_version) := by
  refine ⟨?_, ?_, ?_⟩
  · intro meta cfg r fs1 n hm hc hsync hn q hq
    cases hsrc : alistGet fs.srcFiles cfg.source_file with
    | none =>
      have : syncFromSource hashFn root key force fs =
          (.error (.sourceFileNotFound ("Source file not found: " ++ cfg.source_file)), fs) := by
        simp only [syncFromSource, getPromptRef_eq root key fs meta cfg hm hc, refOf, hm, hc, hsrc]
      rw [this] at hsync
      exact Except.noConfusion (congrArg Prod.fst hsync)
    | some content0 =>
      by_cases hb : (!force && (some (hashFn content0) == cfg.last_hash)) = true
      · have hh : cfg.last_hash = some (hashFn content0) := by
          have := (Bool.and_eq_true _ _).mp hb
          exact (eq_of_beq this.2).symm
        have hforce : force = false := by
          have := (Bool.and_eq_true _ _).mp hb
          cases force
          · rfl
          · cases this.1
        subst hforce
        rw [syncFromSource_eq_noop hashFn root key fs meta cfg content0 hm hc hsrc hh] at hsync
        have : r =
            ({ key := key, changed := false, old_version := some cfg.last_version,
               new_version := none,
               message := "No changes detected for '" ++ key ++ "'" } : SyncResult) := by
          have := congrArg Prod.fst hsync
          injection this with this
          exact this.symm
        rw [this] at hn
        exact Option.noConfusion hn
      · have hw := syncFromSource_eq_write hashFn root key force fs meta cfg content0 hm hc hsrc
          (Bool.eq_false_iff.mpr hb)
        rw [hw] at hsync
        have hr : r =
            ({ key := key, changed := true, old_version := some cfg.last_version,
               new_version :=
                 some (nextVersion key cfg.version_dir (isManagedByRoot root cfg.version_dir) fs),
               message := "Synced '" ++ key ++ "': v" ++ toString cfg.last_version ++ " -> v" ++
                 toString (nextVersion key cfg.version_dir
                   (isManagedByRoot root cfg.version_dir) fs) } : SyncResult) := by
          have := congrArg Prod.fst hsync
          injection this with this
          exact this.symm
        rw [hr] at hn
        injection hn with hn
        rw [← hn]
        exact scan_fst_lt_next key cfg.version_dir (isManagedByRoot root cfg.version_dir) fs q hq
  · intro meta cfg v fs1 hm hc hwrite q hq
    rw [writeNewVersion_eq hashFn root key content fs meta cfg hm hc] at hwrite
    have hv : v =
        ({ key := key,
           version := nextVersion key cfg.version_dir (isManagedByRoot root cfg.version_dir)
             (writeSrc fs cfg.source_file content),
           dir := cfg.version_dir,
           name := versionPathName key
             (nextVersion key cfg.version_dir (isManagedByRoot root cfg.version_dir)
               (writeSrc fs cfg.source_file content))
             (isManagedByRoot root cfg.version_dir) } : PromptVersion) := by
      have := congrArg Prod.fst hwrite
      injection this with this
      exact this.symm
    rw [hv]
    show q.1 < nextVersion key cfg.version_dir (isManagedByRoot root cfg.version_dir)
      (writeSrc fs cfg.source_file content)
    rw [nextVersion_writeSrc]
    exact scan_fst_lt_next key cfg.version_dir (isManagedByRoot root cfg.version_dir) fs q hq
  · intro ref fs1 meta1 cfg1 htrack hm1 hc1 q hq
    cases hm0 : loadMeta (ensureInitialized root fs) with
    | error e =>
      have : trackSource hashFn root key source_file vdir fs = (.error e, ensureInitialized root fs) := by
        simp only [trackSource, hm0]
      rw [this] at htrack
      exact Except.noConfusion (congrArg Prod.fst htrack)
    | ok meta0 =>
      cases hk : alistGet meta0.prompts key with
      | some cfg0 =>
        have : trackSource hashFn root key source_file vdir fs =
            (.error (.promptAlreadyExists ("Prompt key '" ++ key ++ "' already exists.")),
             ensureInitialized root fs) := by
          simp only [trackSource, hm0, hk, Option.isSome_some, if_true]
        rw [this] at htrack
        exact Except.noConfusion (congrArg Prod.fst htrack)
      | none =>
        cases hsrc : alistGet (ensureInitialized root fs).srcFiles source_file with
        | none =>
          have : trackSource hashFn root key source_file vdir fs =
              (.error (.sourceFileNotFound ("Source file not found: " ++ source_file)),
               ensureInitialized root fs) := by
            simp only [trackSource, hm0, hk, Option.isSome_none, Bool.false_eq_true, if_false,
              hsrc]
          rw [this] at htrack
          exact Except.noConfusion (congrArg Prod.fst htrack)
        | some content0 =>
          rw [trackSource_eq hashFn root key source_file vdir fs meta0 content0 hm0 hk hsrc]
            at htrack
          dsimp only at htrack
          set verDir : String := vdir.getD (root ++ "/" ++ key) with hverDir
          set managed := isManagedByRoot root verDir with hmanaged
          set fsmk := mkdirFS (ensureInitialized root fs) verDir with hfsmk
          set nextVer := nextVersion key verDir managed fsmk with hnextVer
          set cfg0 : PromptConfig :=
            { source_file := source_file, version_dir := verDir,
              last_hash := some (hashFn content0), last_version := nextVer } with hcfg0
          have href : ref =
              ({ key := key, source_file := source_file, version_dir := verDir,
                 managed_by_root := managed } : PromptRef) := by
            have := congrArg Prod.fst htrack
            injection this with this
            exact this.symm
          have hfs1 : fs1 = saveMeta { meta0 with prompts := alistSet meta0.prompts key cfg0 }
              (dirWrite fsmk verDir (versionPathName key nextVer managed) content0) := by
            have := congrArg Prod.snd htrack
            exact this.symm
          have hmload : loadMeta fs1 =
              .ok { meta0 with prompts := alistSet meta0.prompts key cfg0 } := by
            rw [hfs1]
            exact loadMeta_save_ok _ _ (loadMeta_schema _ meta0 hm0)
          have hmeta1 : meta1 = { meta0 with prompts := alistSet meta0.prompts key cfg0 } := by
            rw [hm1] at hmload
            exact Except.ok.inj hmload
          have hcfg1 : cfg1 = cfg0 := by
            rw [hmeta1, alistGet_set_self meta0.prompts key cfg0] at hc1
            exact (Option.some.inj hc1).symm
          rw [hcfg1]
          show q.1 < nextVer
          rw [href] at hq
          have hqmk : q ∈ scanVersions key verDir managed fsmk := by
            rw [hfsmk, scan_mkdirFS, scan_ensureInitialized]
            exact hq
          exact scan_fst_lt_next key verDir managed fsmk q hqmk

/-- Witness for C4 (amended): the force-sync on the one-version witness state
creates version 2, strictly above every live-scanned version. -/
theorem version_monotone_live_scan_witness :
    loadMeta fsW = .ok metaW ∧ alistGet metaW.prompts "alpha" = some cfgW ∧
    (∀ q ∈ scanVersions "alpha" cfgW.version_dir (isManagedByRoot rootW cfgW.version_dir) fsW,
      q.1 < 2) := by
  refine ⟨rfl, rfl, ?_⟩
  exact (version_monotone_live_scan hashW rootW "alpha" "/repo/prompt.md" "x" none true fsW).1
    metaW cfgW _ _ 2 rfl rfl rfl rfl

end Promptorium
